import Mathlib

/-!
Shallow embedding of the span-resolution and redundancy-elision core of the
repository (files `llm_extraction/span_matcher.py` and `web_backend/run.py`),
together with a model of the parts of CPython's `difflib.SequenceMatcher`
that those files call (`get_matching_blocks`, `ratio`).

Modelling conventions:
* Python `str` values are `List Char` (one entry per code point, matching
  CPython's `str` indexing).
* Python's whitespace class (`\s` in `re`, `str.isspace`) is modelled on its
  ASCII part; the same predicate is used everywhere, as in the source.
* `str.lower` is modelled as per-code-point simple lowercasing (`Char.toLower`),
  which is length preserving; the source only ever lowercases for comparison.
* Python floats (`similarity_threshold`, `ratio()`) are modelled as exact
  rationals; `ratio()` is `2*M/T`, a ratio of machine integers in the source.
* Fallible operations (`str.find` returning `-1`, functions returning `None`)
  are modelled with `Option`.
-/

set_option maxRecDepth 8000

namespace Hackbrno

/-- Python's whitespace class (`\s`, `str.isspace`), restricted to the ASCII
whitespace characters. Used both by `normalize_whitespace` (`re.sub(r'\s+', ' ', ...)`)
and by `_map_to_original_positions` (`char.isspace()`), exactly as in the source. -/
def isWs (c : Char) : Bool :=
  c = ' ' || c = '\t' || c = '\n' || c = '\r' || c = '\x0b' || c = '\x0c'

/-- Model of Python `str.lower()` (simple per-code-point case mapping). -/
def lowerStr (s : List Char) : List Char := s.map Char.toLower

/-- Arbitrary default character for out-of-bounds reads; every read below is
in bounds whenever the source's corresponding read is. -/
def cNul : Char := Char.ofNat 0

/-! ## Model of `difflib.SequenceMatcher(None, a, b)`

The source calls `get_matching_blocks()` (in `find_duplicates`) and `ratio()`
(in `_fuzzy_find_first`).  With `isjunk = None` the junk set is empty; the
autojunk rule removes "popular" elements of `b` from the index `b2j` when
`len(b) >= 200`. -/

/-- A matching block `Match(a, b, size)` of `difflib`. -/
structure FMatch where
  a : Nat
  b : Nat
  size : Nat
deriving DecidableEq, Repr

/-- `b2j.get(c, [])`: the ascending list of indices of `c` in `b`, with
popular elements removed by the autojunk heuristic (`len(b) >= 200` and
`count > len(b) // 100 + 1`). -/
def b2jGet (b : List Char) (c : Char) : List Nat :=
  if 200 ≤ b.length ∧ b.length / 100 + 1 < b.count c then []
  else (List.range b.length).filter (fun j => decide (b[j]? = some c))

/-- Lookup in the association lists used for `j2len` (Python dict with
`.get(key, 0)` default). Keys are distinct in every list we build. -/
def alGet (l : List (Nat × Nat)) (k : Nat) : Nat :=
  match l with
  | [] => 0
  | (k2, v) :: rest => if k2 = k then v else alGet rest k

/-- Inner loop of `find_longest_match`: one row of the dynamic program, over
the candidate `j` positions of character `a[i]`.  `j < blo` is `continue`,
`j >= bhi` is `break`; `k = j2len.get(j-1, 0) + 1` (in Python `j-1` is `-1`
when `j = 0`, which is never a key, hence the `j = 0` special case here). -/
def dpRow (j2len : List (Nat × Nat)) (blo bhi i : Nat) :
    List Nat → List (Nat × Nat) → FMatch → List (Nat × Nat) × FMatch
  | [], acc, best => (acc, best)
  | j :: js, acc, best =>
    if j < blo then dpRow j2len blo bhi i js acc best
    else if bhi ≤ j then (acc, best)
    else
      let k := (if j = 0 then 0 else alGet j2len (j - 1)) + 1
      let best2 : FMatch := if best.size < k then ⟨i + 1 - k, j + 1 - k, k⟩ else best
      dpRow j2len blo bhi i js ((j, k) :: acc) best2

/-- Outer loop of `find_longest_match`'s dynamic program: rows `i` from `alo`
to `ahi - 1` (`cnt` counts remaining rows). -/
def dpLoop (a b : List Char) (blo bhi : Nat) :
    Nat → Nat → List (Nat × Nat) → FMatch → FMatch
  | 0, _, _, best => best
  | cnt + 1, i, j2len, best =>
    let p := dpRow j2len blo bhi i (b2jGet b (a.getD i cNul)) [] best
    dpLoop a b blo bhi cnt (i + 1) p.1 p.2

/-- The leftward extension loop of `find_longest_match` (with an empty junk
set the `not isbjunk(...)` test is always true and the junk-extension loops
never run).  The fuel argument is an upper bound on the number of iterations
(each iteration needs `alo < m.a` and decrements `m.a`, so fuel `m.a` is
always enough). -/
def extLeft (a b : List Char) (alo blo : Nat) : Nat → FMatch → FMatch
  | 0, m => m
  | fuel + 1, m =>
    if alo < m.a ∧ blo < m.b ∧ a.getD (m.a - 1) cNul = b.getD (m.b - 1) cNul then
      extLeft a b alo blo fuel ⟨m.a - 1, m.b - 1, m.size + 1⟩
    else m

/-- The rightward extension loop of `find_longest_match`; fuel
`ahi - (m.a + m.size)` is always enough. -/
def extRight (a b : List Char) (ahi bhi : Nat) : Nat → FMatch → FMatch
  | 0, m => m
  | fuel + 1, m =>
    if m.a + m.size < ahi ∧ m.b + m.size < bhi ∧
        a.getD (m.a + m.size) cNul = b.getD (m.b + m.size) cNul then
      extRight a b ahi bhi fuel ⟨m.a, m.b, m.size + 1⟩
    else m

/-- `SequenceMatcher.find_longest_match(alo, ahi, blo, bhi)` with an empty
junk set: the `j2len` dynamic program followed by the two non-junk extension
loops. -/
def find_longest_match (a b : List Char) (alo ahi blo bhi : Nat) : FMatch :=
  let best := dpLoop a b blo bhi (ahi - alo) alo [] ⟨alo, blo, 0⟩
  let m := extLeft a b alo blo best.a best
  extRight a b ahi bhi (ahi - (m.a + m.size)) m

/-- Recursive block collection of `get_matching_blocks`.  The source keeps a
LIFO queue and sorts the collected triples afterwards; since the `a`-ranges of
the collected blocks are pairwise disjoint and nonempty, that sort produces
exactly the in-order traversal computed here.  The extra fuel argument only
bounds the recursion depth: every call strictly shrinks `ahi - alo` (see
`find_longest_match_bounds` below), so with fuel `> ahi - alo` — as passed by
`get_matching_blocks` — the `0` branch is unreachable
(`matchingBlocksAux_fuel_eq` below makes this precise). -/
def matchingBlocksAux (a b : List Char) : Nat → Nat → Nat → Nat → Nat → List FMatch
  | 0, _, _, _, _ => []
  | fuel + 1, alo, ahi, blo, bhi =>
    let m := find_longest_match a b alo ahi blo bhi
    if m.size = 0 then []
    else
      (if alo < m.a ∧ blo < m.b then
          matchingBlocksAux a b fuel alo m.a blo m.b else []) ++
      m ::
      (if m.a + m.size < ahi ∧ m.b + m.size < bhi then
          matchingBlocksAux a b fuel (m.a + m.size) ahi (m.b + m.size) bhi else [])

/-- The merge pass of `get_matching_blocks`: adjacent blocks
(`i1 + k1 == i2 and j1 + k1 == j2`) are coalesced; a pending block is emitted
only if its size is nonzero.  The initial pending block is `(0, 0, 0)`. -/
def mergeAdjacent : FMatch → List FMatch → List FMatch
  | cur, [] => if cur.size = 0 then [] else [cur]
  | cur, m :: rest =>
    if cur.a + cur.size = m.a ∧ cur.b + cur.size = m.b then
      mergeAdjacent ⟨cur.a, cur.b, cur.size + m.size⟩ rest
    else
      (if cur.size = 0 then [] else [cur]) ++ mergeAdjacent m rest

/-- `SequenceMatcher.get_matching_blocks()`: collected blocks, merged, with
the terminating sentinel `(len(a), len(b), 0)` appended. -/
def get_matching_blocks (a b : List Char) : List FMatch :=
  mergeAdjacent ⟨0, 0, 0⟩ (matchingBlocksAux a b (a.length + 1) 0 a.length 0 b.length) ++
    [⟨a.length, b.length, 0⟩]

/-- Total number of matched elements (`sum(triple[-1] for triple in get_matching_blocks())`). -/
def totalMatched (a b : List Char) : Nat :=
  ((get_matching_blocks a b).map FMatch.size).sum

/-- `SequenceMatcher.ratio()` = `2*M / (len(a) + len(b))`, and `1.0` when both
sequences are empty, as an exact rational (`mkRat` is exact rational
division of the two machine integers). -/
def sm_ratio (a b : List Char) : Rat :=
  if a.length + b.length = 0 then 1
  else mkRat (2 * (totalMatched a b : Int)) (a.length + b.length)

/-! ## Model of `llm_extraction/span_matcher.py` -/

/-- The `Literal["high", "medium", "low"]` confidence tag of the pydantic models. -/
inductive Confidence where
  | high
  | medium
  | low
deriving DecidableEq, Repr

/-- `ExtractionCitation` (the fields used by `find_first_match`). -/
structure ExtractionCitation where
  question_id : Nat
  quoted_text : List Char
  confidence : Confidence
deriving DecidableEq, Repr

/-- `MedicalRecord` (the fields used by `find_first_match`). -/
structure MedicalRecord where
  record_id : Nat
  text : List Char
deriving DecidableEq, Repr

/-- `ExtractionCitationWithSpan`. -/
structure ExtractionCitationWithSpan where
  question_id : Nat
  quoted_text : List Char
  confidence : Confidence
  record_id : Nat
  start_char : Nat
  end_char : Nat
deriving DecidableEq, Repr

/-- `SpanMatcher(similarity_threshold=0.9)`. -/
structure SpanMatcher where
  similarity_threshold : Rat
deriving DecidableEq, Repr

/-- `re.sub(r'\s+', ' ', text)`: each maximal whitespace run becomes a single
space.  The boolean state records whether we are inside a run that has already
emitted its space. -/
def collapseWsAux : List Char → Bool → List Char
  | [], _ => []
  | c :: rest, inWs =>
    if isWs c then
      if inWs then collapseWsAux rest true
      else ' ' :: collapseWsAux rest true
    else c :: collapseWsAux rest false

/-- Python `str.strip()`: drop whitespace from both ends. -/
def stripWs (l : List Char) : List Char :=
  ((l.dropWhile isWs).reverse.dropWhile isWs).reverse

/-- `SpanMatcher.normalize_whitespace`: `re.sub(r'\s+', ' ', text).strip()`. -/
def normalize_whitespace (text : List Char) : List Char :=
  stripWs (collapseWsAux text false)

/-- Scan for `str.find`: first index at which `pat` is a prefix of the rest of
the haystack. -/
def strFindAux (pat : List Char) : List Char → Nat → Option Nat
  | [], i => if pat.isPrefixOf ([] : List Char) then some i else none
  | l@(_ :: rest), i => if pat.isPrefixOf l then some i else strFindAux pat rest (i + 1)

/-- Python `hay.find(pat)` (leftmost occurrence; `find("")` is `0`), with
`None` for `-1`. -/
def str_find (hay pat : List Char) : Option Nat := strFindAux pat hay 0

/-- The mapping built by `_map_to_original_positions`: one entry per
non-whitespace character and per first character of a whitespace run, plus a
final entry `len(original_text)`. -/
def buildMapAux : List Char → Nat → Bool → List Nat
  | [], idx, _ => [idx]
  | c :: rest, idx, inWs =>
    if isWs c then
      if inWs then buildMapAux rest (idx + 1) true
      else idx :: buildMapAux rest (idx + 1) true
    else idx :: buildMapAux rest (idx + 1) false

/-- `norm_to_orig` of `_map_to_original_positions` (built with
`in_whitespace = False`, starting index 0). -/
def norm_to_orig (original : List Char) : List Nat := buildMapAux original 0 false

/-- Index lookup with the source's out-of-bounds clamp
(`if pos >= len(m): pos = len(m) - 1`). The list is never empty. -/
def mapLookup (m : List Nat) (pos : Nat) : Nat :=
  m.getD (if m.length ≤ pos then m.length - 1 else pos) 0

/-- `SpanMatcher._map_to_original_positions` (the `normalized_text` parameter
of the source is unused there and omitted). -/
def map_to_original_positions (original : List Char) (normStart normEnd : Nat) : Nat × Nat :=
  (mapLookup (norm_to_orig original) normStart, mapLookup (norm_to_orig original) normEnd)

/-- `text[i:i+len]`. -/
def window (text : List Char) (i len : Nat) : List Char := (text.drop i).take len

/-- Sliding-window loop of `_fuzzy_find_first`; `cnt` counts the remaining
window positions (`range(len(text) - pattern_len + 1)` in the source, which is
empty when the pattern is longer than the text). -/
def fuzzyScan (pat text : List Char) (threshold : Rat) : Nat → Nat → Option (Nat × Nat × Rat)
  | 0, _ => none
  | cnt + 1, i =>
    let r := sm_ratio pat (window text i pat.length)
    if threshold ≤ r then some (i, i + pat.length, r)
    else fuzzyScan pat text threshold cnt (i + 1)

/-- `SpanMatcher._fuzzy_find_first(pattern, text, threshold)`: first window
(left to right) whose `SequenceMatcher` ratio reaches the threshold. -/
def fuzzy_find_first (pat text : List Char) (threshold : Rat) : Option (Nat × Nat × Rat) :=
  fuzzyScan pat text threshold (text.length + 1 - pat.length) 0

/-- `SpanMatcher.find_first_match(citation, record)`.  The source's
`original_start, original_end = self._map_to_original_positions(...)` tuple
unpacking is written as the two components of `map_to_original_positions`
(that is, two `mapLookup`s on `norm_to_orig record.text`). -/
def SpanMatcher.find_first_match (self : SpanMatcher)
    (citation : ExtractionCitation) (record : MedicalRecord) :
    Option ExtractionCitationWithSpan :=
  let normalizedCitation := normalize_whitespace citation.quoted_text
  let citationLower := lowerStr normalizedCitation
  let recordLower := lowerStr (normalize_whitespace record.text)
  match str_find recordLower citationLower with
  | some pos =>
    let endPos := pos + citationLower.length
    let original_start := mapLookup (norm_to_orig record.text) pos
    let original_end := mapLookup (norm_to_orig record.text) endPos
    if original_start = 0 ∧ original_end = 0 then none
    else some ⟨citation.question_id, citation.quoted_text, citation.confidence,
               record.record_id, original_start, original_end⟩
  | none =>
    match fuzzy_find_first citationLower recordLower self.similarity_threshold with
    | some f =>
      let original_start := mapLookup (norm_to_orig record.text) f.1
      let original_end := mapLookup (norm_to_orig record.text) f.2.1
      if original_start = 0 ∧ original_end = 0 then none
      else some ⟨citation.question_id, citation.quoted_text, citation.confidence,
                 record.record_id, original_start, original_end⟩
    | none => none

/-! ## Model of `web_backend/run.py` -/

/-- An element of the list returned by `find_duplicates`. -/
structure DupBlock where
  offset : Nat
  size : Nat
  offset_ref : Nat
deriving DecidableEq, Repr

/-- `find_duplicates(value_text, ref_text, min_len)`: matching blocks of size
at least `min_len`, as offset records, sorted by candidate offset.  (Python's
stable `list.sort(key=...)` is modelled by insertion sort; the offsets are
pairwise distinct, so any sort by offset produces the same list.) -/
def find_duplicates (value_text ref_text : List Char) (min_len : Nat) : List DupBlock :=
  let ms := (get_matching_blocks value_text ref_text).filter (fun m => decide (min_len ≤ m.size))
  let result := ms.map (fun m => DupBlock.mk m.a m.size m.b)
  List.insertionSort (fun x y => x.offset ≤ y.offset) result

/-- `TextDuplicate` row created by the batch pass.  Records are identified by
their index in the date-ascending record list.  `offset_start`/`offset_end`
are integers because the source computes them with Python int subtraction. -/
structure TextDuplicate where
  patient_record : Nat
  was_at : Nat
  duplicate_of : Nat
  offset_start : Int
  offset_end : Int
deriving DecidableEq, Repr

/-- `bisect.bisect_left(l, x)` for a sorted list: the number of elements `< x`. -/
def bisect_left (l : List Nat) (x : Nat) : Nat :=
  (l.filter (fun d => decide (d < x))).length

/-- Python list indexing with negative wrap-around (`records[-1]` is the last
element); `bisect_left(dividers, 0) - 1 = -1` makes this reachable. -/
def pyIdx (len : Nat) (i : Int) : Nat :=
  if i < 0 then ((len : Int) + i).toNat else i.toNat

/-- The inner loop of `add_batch`'s duplicate removal: for each block (in
candidate-offset order) delete it from the text, tracking the cumulative
`removed` shift, and record a `TextDuplicate` attributing the block via
`ref_i = bisect_left(dividers, offset_ref) - 1`.  When `ref_i = -1`, Python's
negative indexing wraps `dividers[ref_i]` over the `dividers` list but wraps
the source's `records[ref_i]` over the *full* date-sorted record list
(`nRecs` entries), so `duplicate_of` can name a record that is not among the
earlier ones — including the record currently being edited. -/
def processDups (recIdx nRecs : Nat) (dividers : List Nat) :
    List DupBlock → List Char → Nat → List Char × List TextDuplicate
  | [], text, _ => (text, [])
  | dup :: rest, text, removed =>
    let offset_start := dup.offset - removed
    let size := dup.size
    let text2 := text.take offset_start ++ text.drop (offset_start + size)
    let refI : Int := (bisect_left dividers dup.offset_ref : Int) - 1
    let div_idx := pyIdx dividers.length refI
    let dup_of := pyIdx nRecs refI
    let ref_offset : Int := (dup.offset_ref : Int) - (dividers.getD div_idx 0 : Int)
    let td : TextDuplicate := ⟨recIdx, offset_start, dup_of, ref_offset, ref_offset + size⟩
    let p := processDups recIdx nRecs dividers rest text2 (removed + size)
    (p.1, td :: p.2)

/-- The `dividers` array of `add_batch`: starting offset of each earlier
record's text inside the concatenation `all_text`. -/
def prefixDividers : List (List Char) → List Nat
  | [] => []
  | t :: rest => 0 :: (prefixDividers rest).map (· + t.length)

/-- The per-record loop of `add_batch` with `remove_duplicates=True`: each
record (date-ascending) is compared against the concatenation of the already
edited earlier records, edited in place, and the links are collected. -/
def dedupAux (min_len nRecs : Nat) : List (List Char) → Nat → List (List Char) →
    List (List Char) × List TextDuplicate
  | done, _, [] => (done, [])
  | done, idx, t :: rest =>
    let all_text := done.flatten
    let dividers := prefixDividers done
    let dups := find_duplicates t all_text min_len
    let p := processDups idx nRecs dividers dups t 0
    let q := dedupAux min_len nRecs (done ++ [p.1]) (idx + 1) rest
    (q.1, p.2 ++ q.2)

/-- The whole batch redundancy pass over one subject's records, given in
date-ascending order (`records.sort(key=lambda x: x.date)` upstream); the
spec's `deduplicate_subject(documents, min_block_len)`. -/
def deduplicate_subject (texts : List (List Char)) (min_len : Nat) :
    List (List Char) × List TextDuplicate :=
  dedupAux min_len texts.length [] 0 texts

/-! ## Structure of the normalization index map -/

theorem buildMapAux_length (l : List Char) : ∀ idx w,
    (buildMapAux l idx w).length = (collapseWsAux l w).length + 1 := by
  induction l with
  | nil => intro idx w; simp [buildMapAux, collapseWsAux]
  | cons c rest ih =>
    intro idx w
    cases hc : isWs c <;> cases w <;>
      simp [buildMapAux, collapseWsAux, hc, ih]

theorem buildMapAux_chain (l : List Char) : ∀ idx w,
    List.Chain' (· < ·) (buildMapAux l idx w) ∧
      ∀ x ∈ buildMapAux l idx w, idx ≤ x ∧ x ≤ idx + l.length := by
  induction l with
  | nil =>
    intro idx w
    simp [buildMapAux]
  | cons c rest ih =>
    intro idx w
    have bump : ∀ x ∈ buildMapAux rest (idx + 1) w, idx ≤ x ∧ x ≤ idx + (c :: rest).length := by
      intro x hx
      have := (ih (idx + 1) w).2 x hx
      simp only [List.length_cons]
      omega
    have bump2 : ∀ w2, List.Chain' (· < ·) (idx :: buildMapAux rest (idx + 1) w2) ∧
        ∀ x ∈ idx :: buildMapAux rest (idx + 1) w2, idx ≤ x ∧ x ≤ idx + (c :: rest).length := by
      intro w2
      constructor
      · refine List.chain'_cons'.2 ⟨?_, (ih (idx + 1) w2).1⟩
        intro y hy
        have : y ∈ buildMapAux rest (idx + 1) w2 := List.mem_of_mem_head? hy
        have := (ih (idx + 1) w2).2 y this
        omega
      · intro x hx
        rcases List.mem_cons.1 hx with h | h
        · subst h; simp
        · have := (ih (idx + 1) w2).2 x h
          simp only [List.length_cons]
          omega
    cases hc : isWs c <;> cases w <;> simp only [buildMapAux, hc, if_true, if_false,
      Bool.false_eq_true, ite_false, ite_true]
    · exact bump2 false
    · exact bump2 false
    · exact bump2 true
    · refine ⟨(ih (idx + 1) true).1, ?_⟩
      intro x hx
      exact bump x hx

theorem norm_to_orig_length (l : List Char) :
    (norm_to_orig l).length = (collapseWsAux l false).length + 1 :=
  buildMapAux_length l 0 false

theorem norm_to_orig_chain (l : List Char) : List.Chain' (· < ·) (norm_to_orig l) :=
  (buildMapAux_chain l 0 false).1

theorem norm_to_orig_le_length (l : List Char) :
    ∀ x ∈ norm_to_orig l, x ≤ l.length := by
  intro x hx
  have := (buildMapAux_chain l 0 false).2 x hx
  omega

theorem norm_to_orig_head (l : List Char) : (norm_to_orig l).getD 0 0 = 0 := by
  cases l with
  | nil => simp [norm_to_orig, buildMapAux]
  | cons c rest =>
    cases hc : isWs c <;> simp [norm_to_orig, buildMapAux, hc]

/-- Entries of a `(· < ·)`-chain are strictly increasing under `getD`. -/
theorem chain'_lt_getD {l : List Nat} (h : List.Chain' (· < ·) l) {i j : Nat}
    (hij : i < j) (hj : j < l.length) : l.getD i 0 < l.getD j 0 := by
  have hp : List.Pairwise (· < ·) l := List.chain'_iff_pairwise.1 h
  have hi : i < l.length := lt_trans hij hj
  rw [List.getD_eq_getElem l 0 hi, List.getD_eq_getElem l 0 hj]
  exact List.pairwise_iff_getElem.1 hp i j hi hj hij

theorem getD_mem_of_lt {l : List Nat} {i : Nat} (h : i < l.length) : l.getD i 0 ∈ l := by
  rw [List.getD_eq_getElem l 0 h]
  exact List.getElem_mem h

theorem length_dropWhile_le (p : Char → Bool) (l : List Char) :
    (l.dropWhile p).length ≤ l.length := by
  induction l with
  | nil => simp
  | cons c rest ih =>
    by_cases hc : p c
    · simp only [List.dropWhile_cons, hc, if_true, List.length_cons]
      omega
    · simp [List.dropWhile_cons, hc]

/-- The normalized text is never longer than the collapsed (untrimmed) text. -/
theorem stripWs_length_le (l : List Char) : (stripWs l).length ≤ l.length := by
  unfold stripWs
  have h1 : (l.dropWhile isWs).length ≤ l.length := length_dropWhile_le isWs l
  have h2 : ((l.dropWhile isWs).reverse.dropWhile isWs).length ≤
      (l.dropWhile isWs).reverse.length := length_dropWhile_le isWs _
  simp only [List.length_reverse] at *
  omega

theorem normalize_length_le (t : List Char) :
    (normalize_whitespace t).length ≤ (collapseWsAux t false).length :=
  stripWs_length_le _

/-! ## `str.find` -/

theorem strFindAux_sound (pat : List Char) : ∀ l i j, strFindAux pat l i = some j →
    ∃ k, j = i + k ∧ k ≤ l.length ∧ pat.isPrefixOf (l.drop k) = true := by
  intro l
  induction l with
  | nil =>
    intro i j h
    simp only [strFindAux] at h
    split at h
    · rename_i hp
      obtain rfl : i = j := Option.some.inj h
      exact ⟨0, by omega, by simp, by simpa using hp⟩
    · exact absurd h (by simp)
  | cons c rest ih =>
    intro i j h
    simp only [strFindAux] at h
    split at h
    · rename_i hp
      obtain rfl : i = j := Option.some.inj h
      exact ⟨0, by omega, by simp, by simpa using hp⟩
    · rcases ih (i + 1) j h with ⟨k, hk, hkl, hpre⟩
      refine ⟨k + 1, by omega, ?_, by simpa using hpre⟩
      simp only [List.length_cons]
      omega

theorem str_find_sound {hay pat : List Char} {j : Nat} (h : str_find hay pat = some j) :
    j ≤ hay.length ∧ pat <+: hay.drop j ∧ j + pat.length ≤ hay.length := by
  rcases strFindAux_sound pat hay 0 j h with ⟨k, hk, hkl, hpre⟩
  have hk0 : j = k := by omega
  subst hk0
  have hpre2 : pat <+: hay.drop j := List.isPrefixOf_iff_prefix.1 hpre
  refine ⟨hkl, hpre2, ?_⟩
  have := hpre2.length_le
  simp only [List.length_drop] at this
  omega

theorem str_find_nil (hay : List Char) : str_find hay [] = some 0 := by
  cases hay <;> simp [str_find, strFindAux, List.isPrefixOf]

/-! ## The fuzzy scan -/

theorem fuzzyScan_sound (pat text : List Char) (θ : Rat) :
    ∀ cnt i0 s e r, fuzzyScan pat text θ cnt i0 = some (s, e, r) →
      i0 ≤ s ∧ s + 1 ≤ i0 + cnt ∧ e = s + pat.length ∧
        r = sm_ratio pat (window text s pat.length) ∧ θ ≤ r := by
  intro cnt
  induction cnt with
  | zero => intro i0 s e r h; simp [fuzzyScan] at h
  | succ n ih =>
    intro i0 s e r h
    simp only [fuzzyScan] at h
    split at h
    · rename_i hθ
      have h' := Option.some.inj h
      rw [Prod.mk.injEq, Prod.mk.injEq] at h'
      obtain ⟨rfl, rfl, rfl⟩ := h'
      exact ⟨le_refl _, by omega, rfl, rfl, hθ⟩
    · rcases ih (i0 + 1) s e r h with ⟨h1, h2, h3, h4, h5⟩
      exact ⟨by omega, by omega, h3, h4, h5⟩

theorem fuzzy_find_first_sound {pat text : List Char} {θ : Rat} {s e : Nat} {r : Rat}
    (h : fuzzy_find_first pat text θ = some (s, e, r)) :
    e = s + pat.length ∧ s + pat.length ≤ text.length := by
  rcases fuzzyScan_sound pat text θ (text.length + 1 - pat.length) 0 s e r h with
    ⟨_, h2, h3, _, _⟩
  constructor
  · exact h3
  · omega

/-- Completeness of the fuzzy scan: a `none` result means every window reached
by the scan was strictly below the threshold. -/
theorem fuzzyScan_complete (pat text : List Char) (θ : Rat) :
    ∀ cnt i0, fuzzyScan pat text θ cnt i0 = none →
      ∀ i, i0 ≤ i → i < i0 + cnt → sm_ratio pat (window text i pat.length) < θ := by
  intro cnt
  induction cnt with
  | zero => intro i0 _ i h1 h2; omega
  | succ n ih =>
    intro i0 h i h1 h2
    simp only [fuzzyScan] at h
    split at h
    · exact absurd h (by simp)
    · rename_i hθ
      rcases Nat.eq_or_lt_of_le h1 with he | hlt
      · subst he
        exact lt_of_not_le hθ
      · exact ih (i0 + 1) h i hlt (by omega)

/-! ## Span invariants of `find_first_match` -/

theorem mapLookup_of_lt {m : List Nat} {pos : Nat} (h : pos < m.length) :
    mapLookup m pos = m.getD pos 0 := by
  unfold mapLookup
  rw [if_neg (by omega)]

theorem lowerStr_length (s : List Char) : (lowerStr s).length = s.length := by
  simp [lowerStr]

theorem mapLookup_zero (t : List Char) : mapLookup (norm_to_orig t) 0 = 0 := by
  have h := norm_to_orig_length t
  rw [mapLookup_of_lt (by omega)]
  exact norm_to_orig_head t

/-- Every span returned by `find_first_match` is strictly nonempty and ends
within the record text. -/
theorem find_first_match_bounds (self : SpanMatcher) (citation : ExtractionCitation)
    (record : MedicalRecord) (s : ExtractionCitationWithSpan)
    (h : self.find_first_match citation record = some s) :
    s.start_char < s.end_char ∧ s.end_char ≤ record.text.length := by
  have hMlen : (norm_to_orig record.text).length = (collapseWsAux record.text false).length + 1 :=
    norm_to_orig_length record.text
  have hrl : (lowerStr (normalize_whitespace record.text)).length ≤
      (collapseWsAux record.text false).length := by
    rw [lowerStr_length]
    exact normalize_length_le record.text
  have hub : ∀ i, i < (norm_to_orig record.text).length →
      (norm_to_orig record.text).getD i 0 ≤ record.text.length := fun i hi =>
    norm_to_orig_le_length record.text _ (getD_mem_of_lt hi)
  simp only [SpanMatcher.find_first_match] at h
  split at h
  · rename_i pos heq
    by_cases hcl0 : (lowerStr (normalize_whitespace citation.quoted_text)).length = 0
    · exfalso
      have hcl : lowerStr (normalize_whitespace citation.quoted_text) = [] :=
        List.eq_nil_of_length_eq_zero hcl0
      rw [hcl, str_find_nil] at heq
      obtain rfl : (0 : Nat) = pos := Option.some.inj heq
      rw [hcl0] at h
      rw [mapLookup_zero] at h
      simp at h
    · have hsound := str_find_sound heq
      have hposM : pos < (norm_to_orig record.text).length := by omega
      have hendM : pos + (lowerStr (normalize_whitespace citation.quoted_text)).length <
          (norm_to_orig record.text).length := by omega
      rw [mapLookup_of_lt hposM, mapLookup_of_lt hendM] at h
      split_ifs at h with hguard
      obtain rfl := Option.some.inj h
      refine ⟨?_, ?_⟩
      · exact chain'_lt_getD (norm_to_orig_chain record.text) (by omega) hendM
      · exact hub _ hendM
  · rename_i heqn
    split at h
    · rename_i f heqf
      obtain ⟨s0, e0, r⟩ := f
      have hclne : (lowerStr (normalize_whitespace citation.quoted_text)).length ≠ 0 := by
        intro h0
        rw [List.eq_nil_of_length_eq_zero h0, str_find_nil] at heqn
        exact absurd heqn (by simp)
      obtain ⟨he0, hfit⟩ := fuzzy_find_first_sound heqf
      have hposM : s0 < (norm_to_orig record.text).length := by omega
      have hendM : e0 < (norm_to_orig record.text).length := by omega
      dsimp only at h
      rw [mapLookup_of_lt hposM, mapLookup_of_lt hendM] at h
      split_ifs at h with hguard
      obtain rfl := Option.some.inj h
      refine ⟨?_, ?_⟩
      · exact chain'_lt_getD (norm_to_orig_chain record.text) (by omega) hendM
      · exact hub _ hendM
    · simp at h

/-! ## Whitespace-only citations -/

theorem collapseWsAux_all_space {l : List Char} (h : ∀ c ∈ l, isWs c = true) :
    ∀ w c, c ∈ collapseWsAux l w → c = ' ' := by
  induction l with
  | nil => intro w c hc; simp [collapseWsAux] at hc
  | cons a rest ih =>
    intro w c hc
    have ha : isWs a = true := h a (by simp)
    have hrest : ∀ c ∈ rest, isWs c = true := fun c hc => h c (by simp [hc])
    cases w <;> simp only [collapseWsAux, ha, if_true, ite_true] at hc
    · rcases List.mem_cons.1 hc with h1 | h1
      · exact h1
      · exact ih hrest true c h1
    · exact ih hrest true c hc

theorem stripWs_all_ws {l : List Char} (h : ∀ c ∈ l, isWs c = true) : stripWs l = [] := by
  unfold stripWs
  have : l.dropWhile isWs = [] := by
    rw [List.dropWhile_eq_nil_iff]
    intro x hx
    exact h x hx
  rw [this]
  simp

theorem normalize_of_all_ws {l : List Char} (h : ∀ c ∈ l, isWs c = true) :
    normalize_whitespace l = [] := by
  unfold normalize_whitespace
  apply stripWs_all_ws
  intro c hc
  have := collapseWsAux_all_space h false c hc
  subst this
  rfl

/-! ## Head and last of the collapsed text -/

theorem collapseWsAux_head_nonws {c : Char} (rest : List Char) (hc : isWs c = false) (w : Bool) :
    collapseWsAux (c :: rest) w = c :: collapseWsAux rest false := by
  simp [collapseWsAux, hc]

theorem getLast?_cons_of_getLast? {α : Type} {a x : α} {l : List α}
    (h : l.getLast? = some x) : (a :: l).getLast? = some x := by
  cases l with
  | nil => simp at h
  | cons b l2 => rw [List.getLast?_cons_cons]; exact h

theorem collapseWsAux_last_nonws :
    ∀ (l : List Char) (w : Bool), (∀ c, l.getLast? = some c → isWs c = false) → l ≠ [] →
      ∃ c, (collapseWsAux l w).getLast? = some c ∧ isWs c = false := by
  intro l
  induction l with
  | nil => intro w _ hne; exact absurd rfl hne
  | cons a rest ih =>
    intro w hlast _
    cases rest with
    | nil =>
      have ha : isWs a = false := by
        apply hlast
        simp
      exact ⟨a, by simp [collapseWsAux, ha], ha⟩
    | cons b rest2 =>
      have hlast2 : ∀ c, (b :: rest2).getLast? = some c → isWs c = false := by
        intro c hc
        apply hlast
        rw [List.getLast?_cons_cons]
        exact hc
      cases haw : isWs a with
      | false =>
        obtain ⟨c, hc, hcw⟩ := ih false hlast2 (by simp)
        refine ⟨c, ?_, hcw⟩
        rw [collapseWsAux_head_nonws _ haw]
        exact getLast?_cons_of_getLast? hc
      | true =>
        cases w with
        | true =>
          obtain ⟨c, hc, hcw⟩ := ih true hlast2 (by simp)
          refine ⟨c, ?_, hcw⟩
          simpa [collapseWsAux, haw] using hc
        | false =>
          obtain ⟨c, hc, hcw⟩ := ih true hlast2 (by simp)
          refine ⟨c, ?_, hcw⟩
          simp only [collapseWsAux, haw, if_true, ite_true]
          exact getLast?_cons_of_getLast? hc

theorem stripWs_eq_self {l : List Char}
    (h1 : ∀ c, l.head? = some c → isWs c = false)
    (h2 : ∀ c, l.getLast? = some c → isWs c = false) : stripWs l = l := by
  unfold stripWs
  have d1 : l.dropWhile isWs = l := by
    cases l with
    | nil => rfl
    | cons a rest =>
      rw [List.dropWhile_cons, h1 a rfl]
      simp
  rw [d1]
  have d2 : l.reverse.dropWhile isWs = l.reverse := by
    cases hrev : l.reverse with
    | nil => rfl
    | cons b rest2 =>
      have hb : l.getLast? = some b := by
        rw [← List.head?_reverse, hrev]
        rfl
      rw [List.dropWhile_cons, h2 b hb]
      simp
  rw [d2, List.reverse_reverse]

/-- For text with non-whitespace first and last characters, stripping is a
no-op on the collapsed text: `normalize_whitespace` and the collapse agree. -/
theorem normalize_eq_collapse {t : List Char}
    (h1 : ∀ c, t.head? = some c → isWs c = false)
    (h2 : ∀ c, t.getLast? = some c → isWs c = false) :
    normalize_whitespace t = collapseWsAux t false := by
  unfold normalize_whitespace
  cases t with
  | nil => rfl
  | cons c rest =>
    have hc : isWs c = false := h1 c rfl
    obtain ⟨d, hd, hdw⟩ := collapseWsAux_last_nonws (c :: rest) false h2 (by simp)
    apply stripWs_eq_self
    · intro x hx
      rw [collapseWsAux_head_nonws _ hc] at hx
      obtain rfl : c = x := Option.some.inj hx
      exact hc
    · intro x hx
      rw [hd] at hx
      obtain rfl : d = x := Option.some.inj hx
      exact hdw

/-! ## Claim theorems: C6, C7, C8, C9 -/

/-- C6 (corrected): the index map built by `_map_to_original_positions` is
strictly increasing (hence monotonically non-decreasing), but it has exactly
`len(collapsed_text) + 1` entries, where `collapsed_text` is the
whitespace-collapsed but *untrimmed* text; this equals
`len(normalized_text) + 1` when the text starts and ends with
non-whitespace characters (one extra entry appears per leading/trailing
whitespace run). -/
theorem claim_C6 (t : List Char) :
    List.Chain' (· < ·) (norm_to_orig t) ∧
    (norm_to_orig t).length = (collapseWsAux t false).length + 1 ∧
    ((∀ c, t.head? = some c → isWs c = false) →
     (∀ c, t.getLast? = some c → isWs c = false) →
     (norm_to_orig t).length = (normalize_whitespace t).length + 1) := by
  refine ⟨norm_to_orig_chain t, norm_to_orig_length t, ?_⟩
  intro h1 h2
  rw [norm_to_orig_length t, normalize_eq_collapse h1 h2]

/-- Witness for C6 at a concrete text without boundary whitespace. -/
theorem claim_C6_witness :
    List.Chain' (· < ·) (norm_to_orig "a b".data) ∧
    (norm_to_orig "a b".data).length = (normalize_whitespace "a b".data).length + 1 :=
  ⟨(claim_C6 "a b".data).1, (claim_C6 "a b".data).2.2 (by decide) (by decide)⟩

/-- Counterexample for C6 as stated: for the text `" a"` (leading whitespace)
the map has 3 entries, but `len(normalized_text) + 1 = 2`. -/
theorem claim_C6_counterexample :
    ¬ ((norm_to_orig " a".data).length = (normalize_whitespace " a".data).length + 1) := by
  decide

/-- C7: every resolved span returned by `find_first_match` satisfies
`0 ≤ start_char < end_char ≤ len(record.text)`. -/
theorem claim_C7 (self : SpanMatcher) (citation : ExtractionCitation)
    (record : MedicalRecord) (s : ExtractionCitationWithSpan)
    (h : self.find_first_match citation record = some s) :
    0 ≤ s.start_char ∧ s.start_char < s.end_char ∧ s.end_char ≤ record.text.length :=
  ⟨Nat.zero_le _, (find_first_match_bounds self citation record s h).1,
    (find_first_match_bounds self citation record s h).2⟩

/-- Witness for C7: a concrete resolved span. -/
theorem claim_C7_witness :
    0 ≤ (⟨1, "ab".data, Confidence.high, 3, 0, 2⟩ : ExtractionCitationWithSpan).start_char ∧
    (⟨1, "ab".data, Confidence.high, 3, 0, 2⟩ : ExtractionCitationWithSpan).start_char <
      (⟨1, "ab".data, Confidence.high, 3, 0, 2⟩ : ExtractionCitationWithSpan).end_char ∧
    (⟨1, "ab".data, Confidence.high, 3, 0, 2⟩ : ExtractionCitationWithSpan).end_char ≤
      (⟨3, "ab".data⟩ : MedicalRecord).text.length :=
  claim_C7 ⟨mkRat 9 10⟩ ⟨1, "ab".data, Confidence.high⟩ ⟨3, "ab".data⟩
    ⟨1, "ab".data, Confidence.high, 3, 0, 2⟩ (by decide)

/-- C8: the degenerate-span guard never rejects a genuine match at offset 0:
if the (normalized, lowercased) citation is nonempty and matches the
(normalized, lowercased) record at position 0, `find_first_match` returns a
span with `start_char = 0` and `end_char > 0`. -/
theorem claim_C8 (self : SpanMatcher) (citation : ExtractionCitation) (record : MedicalRecord)
    (hne : lowerStr (normalize_whitespace citation.quoted_text) ≠ [])
    (h0 : str_find (lowerStr (normalize_whitespace record.text))
        (lowerStr (normalize_whitespace citation.quoted_text)) = some 0) :
    ∃ s, self.find_first_match citation record = some s ∧
      s.start_char = 0 ∧ 0 < s.end_char := by
  have hsound := str_find_sound h0
  have hMlen := norm_to_orig_length record.text
  have hrl : (lowerStr (normalize_whitespace record.text)).length ≤
      (collapseWsAux record.text false).length := by
    rw [lowerStr_length]
    exact normalize_length_le record.text
  have hlen1 : 1 ≤ (lowerStr (normalize_whitespace citation.quoted_text)).length := by
    cases hL : lowerStr (normalize_whitespace citation.quoted_text) with
    | nil => exact absurd hL hne
    | cons x xs => simp
  have hendM : 0 + (lowerStr (normalize_whitespace citation.quoted_text)).length <
      (norm_to_orig record.text).length := by omega
  have hpos : 0 < (norm_to_orig record.text).getD
      (0 + (lowerStr (normalize_whitespace citation.quoted_text)).length) 0 := by
    have h0lt := chain'_lt_getD (norm_to_orig_chain record.text)
      (show (0 : Nat) < 0 + (lowerStr (normalize_whitespace citation.quoted_text)).length by omega)
      hendM
    have hh := norm_to_orig_head record.text
    omega
  simp only [SpanMatcher.find_first_match]
  rw [h0]
  dsimp only
  rw [mapLookup_zero record.text, mapLookup_of_lt hendM]
  rw [if_neg (by intro hand; omega)]
  exact ⟨_, rfl, rfl, hpos⟩

/-- Witness for C8: a genuine match at document offset 0 is returned. -/
theorem claim_C8_witness :
    ∃ s, (⟨mkRat 9 10⟩ : SpanMatcher).find_first_match ⟨1, "ab".data, Confidence.high⟩
        ⟨3, "abc".data⟩ = some s ∧ s.start_char = 0 ∧ 0 < s.end_char :=
  claim_C8 ⟨mkRat 9 10⟩ ⟨1, "ab".data, Confidence.high⟩ ⟨3, "abc".data⟩ (by decide) (by decide)

/-- C9: a citation whose `quoted_text` is empty or whitespace-only is always
rejected: `find_first_match` returns `none` (and, being a total function,
cannot raise). -/
theorem claim_C9 (self : SpanMatcher) (citation : ExtractionCitation) (record : MedicalRecord)
    (hws : ∀ c ∈ citation.quoted_text, isWs c = true) :
    self.find_first_match citation record = none := by
  have hn : normalize_whitespace citation.quoted_text = [] := normalize_of_all_ws hws
  simp only [SpanMatcher.find_first_match, hn]
  rw [show lowerStr ([] : List Char) = [] from rfl, str_find_nil]
  dsimp only
  simp only [List.length_nil, Nat.add_zero]
  rw [mapLookup_zero record.text]
  simp

/-- Witness for C9: the whitespace-only citation `" "` resolves to `none`. -/
theorem claim_C9_witness :
    (⟨mkRat 9 10⟩ : SpanMatcher).find_first_match ⟨1, " ".data, Confidence.high⟩
      ⟨2, "xy".data⟩ = none :=
  claim_C9 ⟨mkRat 9 10⟩ ⟨1, " ".data, Confidence.high⟩ ⟨2, "xy".data⟩ (by decide)

/-! ## Claim theorems: C4, C5 -/

/-- C4 (corrected): `find_first_match` carries the citation's `confidence`
into the resolved span unchanged on *both* the exact and the approximate
path; no downgrade to the lowest tier ever happens in `span_matcher.py`. -/
theorem claim_C4 (self : SpanMatcher) (citation : ExtractionCitation) (record : MedicalRecord)
    (s : ExtractionCitationWithSpan) (h : self.find_first_match citation record = some s) :
    s.confidence = citation.confidence := by
  simp only [SpanMatcher.find_first_match] at h
  split at h
  · split_ifs at h
    obtain rfl := Option.some.inj h
    rfl
  · split at h
    · split_ifs at h
      obtain rfl := Option.some.inj h
      rfl
    · simp at h

/-- Witness for C4's amended statement at a concrete resolved citation. -/
theorem claim_C4_witness :
    (⟨1, "ab".data, Confidence.medium, 3, 0, 2⟩ : ExtractionCitationWithSpan).confidence =
      (⟨1, "ab".data, Confidence.medium⟩ : ExtractionCitation).confidence :=
  claim_C4 ⟨mkRat 9 10⟩ ⟨1, "ab".data, Confidence.medium⟩ ⟨3, "ab".data⟩
    ⟨1, "ab".data, Confidence.medium, 3, 0, 2⟩ (by decide)

/-- Counterexample for C4 as stated: this citation is resolved only by the
approximate matcher (the exact search on the normalized lowercased texts
fails, second conjunct), yet the emitted span still carries confidence
`high` — not the lowest tier. -/
theorem claim_C4_counterexample :
    (⟨mkRat 9 10⟩ : SpanMatcher).find_first_match
        ⟨1, "aaaaaaaaaabbbbbbbbbc".data, Confidence.high⟩
        ⟨5, "aaaaaaaaaabbbbbbbbbb".data⟩ =
      some ⟨1, "aaaaaaaaaabbbbbbbbbc".data, Confidence.high, 5, 0, 20⟩ ∧
    str_find (lowerStr (normalize_whitespace "aaaaaaaaaabbbbbbbbbb".data))
        (lowerStr (normalize_whitespace "aaaaaaaaaabbbbbbbbbc".data)) = none := by
  decide

/-- C5 (corrected): `_fuzzy_find_first` enforces no minimum pattern length:
for a pattern of *any* length (also far below 10 characters), a `none` result
means every window of length `len(pattern)` inside the text was compared and
fell strictly below the threshold — no window position is skipped. -/
theorem claim_C5 (pat text : List Char) (θ : Rat)
    (h : fuzzy_find_first pat text θ = none) :
    ∀ i, i + pat.length ≤ text.length → sm_ratio pat (window text i pat.length) < θ := by
  intro i hi
  exact fuzzyScan_complete pat text θ (text.length + 1 - pat.length) 0 h i
    (Nat.zero_le i) (by omega)

/-- Witness for C5's amended statement with a 2-character pattern. -/
theorem claim_C5_witness :
    sm_ratio "ab".data (window "cd".data 0 ("ab".data).length) < mkRat 9 10 :=
  claim_C5 "ab".data "cd".data (mkRat 9 10) (by decide) 0 (by decide)

/-- Counterexample for C5 as stated: the 3-character pattern `"abc"` — far
below the claimed ~10-character minimum — is not skipped: fuzzy matching
compares windows and returns a match. -/
theorem claim_C5_counterexample :
    fuzzy_find_first "abc".data "abc".data (mkRat 9 10) = some (0, 3, 1) := by decide

/-! ## Claim theorems: C2, C3 -/

/-- C2 (code bug): in the spec's concrete two-document scenario with
`min_block_len = 20` (records in date order: the 2022-10-05 document first),
the duplicated clause is detected as the single block
`(offset 10, size 37, offset_in_reference 0)` and document 2's text is edited
as described — but the recorded link is NOT attributed to document 1.  The
block's `offset_in_reference 0` equals the single divider, so
`bisect_left([0], 0) - 1 = -1` (the code searches for the last divider
strictly *below* the offset, not one less-or-equal to it), and `records[ref_i]` wraps over the
full date-sorted record list: `duplicate_of` becomes document 2 itself (index
1), a self-link; no link to document 1 (index 0) is ever recorded. -/
theorem claim_C2 :
    find_duplicates "Kontrola. Pacientka s karcinomem prsu, cT2N0M0. Stav stabilní.".data
        "Pacientka s karcinomem prsu, cT2N0M0.".data 20 = [⟨10, 37, 0⟩] ∧
    (deduplicate_subject ["Pacientka s karcinomem prsu, cT2N0M0.".data,
        "Kontrola. Pacientka s karcinomem prsu, cT2N0M0. Stav stabilní.".data] 20).2 =
      [⟨1, 10, 1, 0, 37⟩] ∧
    (∀ td ∈ (deduplicate_subject ["Pacientka s karcinomem prsu, cT2N0M0.".data,
        "Kontrola. Pacientka s karcinomem prsu, cT2N0M0. Stav stabilní.".data] 20).2,
      td.duplicate_of ≠ 0) ∧
    (deduplicate_subject ["Pacientka s karcinomem prsu, cT2N0M0.".data,
        "Kontrola. Pacientka s karcinomem prsu, cT2N0M0. Stav stabilní.".data] 20).1 =
      ["Pacientka s karcinomem prsu, cT2N0M0.".data,
       "Kontrola.  Stav stabilní.".data] ∧
    str_find "Kontrola.  Stav stabilní.".data
        "Pacientka s karcinomem prsu, cT2N0M0.".data = none := by
  decide

/-- C3 (corrected): idempotence of the batch pass fails in general (see the
counterexample); it does hold on the spec's own concrete two-document
scenario: a second run of the pass on the already edited documents records no
further links. -/
theorem claim_C3 :
    (deduplicate_subject (deduplicate_subject
      ["Pacientka s karcinomem prsu, cT2N0M0.".data,
       "Kontrola. Pacientka s karcinomem prsu, cT2N0M0. Stav stabilní.".data] 20).1 20).2 =
      [] := by
  decide

/-- Counterexample for C3 as stated: the first pass removes the single long
block `ABCDEFGHIJKLMNOPQRSTU` from document 2, which makes the two previously
separated halves `0123456789` and `abcdefghij` contiguous; together they form
a fresh 20-character block present in document 1, so a second run of the pass
on its own output records another link. -/
theorem claim_C3_counterexample :
    (deduplicate_subject (deduplicate_subject
      ["0123456789abcdefghijABCDEFGHIJKLMNOPQRSTU".data,
       "0123456789ABCDEFGHIJKLMNOPQRSTUabcdefghij".data] 20).1 20).2 ≠ [] := by
  decide

/-! ## Invariants of `find_longest_match` -/

theorem alGet_cases (l : List (Nat × Nat)) (k : Nat) :
    alGet l k = 0 ∨ (k, alGet l k) ∈ l := by
  induction l with
  | nil => exact Or.inl rfl
  | cons p rest ih =>
    obtain ⟨k2, v⟩ := p
    by_cases hk : k2 = k
    · subst hk
      simp [alGet]
    · simp only [alGet, hk, if_false, ite_false]
      rcases ih with h | h
      · exact Or.inl h
      · exact Or.inr (List.mem_cons_of_mem _ h)

theorem dpRow_inv (blo bhi i alo ahi : Nat) (hi1 : alo ≤ i) (hi2 : i < ahi) :
    ∀ (js : List Nat) (j2len acc : List (Nat × Nat)) (best : FMatch),
      (∀ p ∈ j2len, 1 ≤ p.2 ∧ p.2 + alo ≤ i ∧ p.2 + blo ≤ p.1 + 1) →
      (∀ p ∈ acc, 1 ≤ p.2 ∧ p.2 + alo ≤ i + 1 ∧ p.2 + blo ≤ p.1 + 1) →
      (best = ⟨alo, blo, 0⟩ ∨
        (1 ≤ best.size ∧ alo ≤ best.a ∧ best.a + best.size ≤ ahi ∧
          blo ≤ best.b ∧ best.b + best.size ≤ bhi)) →
      (∀ p ∈ (dpRow j2len blo bhi i js acc best).1,
          1 ≤ p.2 ∧ p.2 + alo ≤ i + 1 ∧ p.2 + blo ≤ p.1 + 1) ∧
      ((dpRow j2len blo bhi i js acc best).2 = ⟨alo, blo, 0⟩ ∨
        (1 ≤ (dpRow j2len blo bhi i js acc best).2.size ∧
          alo ≤ (dpRow j2len blo bhi i js acc best).2.a ∧
          (dpRow j2len blo bhi i js acc best).2.a +
            (dpRow j2len blo bhi i js acc best).2.size ≤ ahi ∧
          blo ≤ (dpRow j2len blo bhi i js acc best).2.b ∧
          (dpRow j2len blo bhi i js acc best).2.b +
            (dpRow j2len blo bhi i js acc best).2.size ≤ bhi)) := by
  intro js
  induction js with
  | nil =>
    intro j2len acc best _ hacc hbest
    simp only [dpRow]
    exact ⟨hacc, hbest⟩
  | cons j js ih =>
    intro j2len acc best hold hacc hbest
    by_cases hjlo : j < blo
    · simp only [dpRow, hjlo, ite_true]
      exact ih j2len acc best hold hacc hbest
    · by_cases hjhi : bhi ≤ j
      · simp only [dpRow, hjlo, hjhi, ite_true, ite_false]
        exact ⟨hacc, hbest⟩
      · simp only [dpRow, hjlo, hjhi, ite_false]
        have hkbound : ((if j = 0 then 0 else alGet j2len (j - 1)) + 1) + alo ≤ i + 1 ∧
            ((if j = 0 then 0 else alGet j2len (j - 1)) + 1) + blo ≤ j + 1 := by
          by_cases hj0 : j = 0
          · subst hj0
            simp only [ite_true]
            omega
          · simp only [hj0, ite_false]
            rcases alGet_cases j2len (j - 1) with h0 | hmem
            · rw [h0]
              omega
            · have hh := hold _ hmem
              simp only at hh
              omega
        apply ih
        · exact hold
        · intro p hp
          rcases List.mem_cons.1 hp with rfl | hp2
          · refine ⟨by omega, by omega, by omega⟩
          · exact hacc p hp2
        · by_cases hbk : best.size < (if j = 0 then 0 else alGet j2len (j - 1)) + 1
          · rw [if_pos hbk]
            right
            dsimp only
            refine ⟨by omega, by omega, by omega, by omega, by omega⟩
          · rw [if_neg hbk]
            exact hbest

theorem dpLoop_inv (a b : List Char) (blo bhi alo ahi : Nat) :
    ∀ (cnt i : Nat) (j2len : List (Nat × Nat)) (best : FMatch),
      alo ≤ i → i + cnt ≤ ahi →
      (∀ p ∈ j2len, 1 ≤ p.2 ∧ p.2 + alo ≤ i ∧ p.2 + blo ≤ p.1 + 1) →
      (best = ⟨alo, blo, 0⟩ ∨
        (1 ≤ best.size ∧ alo ≤ best.a ∧ best.a + best.size ≤ ahi ∧
          blo ≤ best.b ∧ best.b + best.size ≤ bhi)) →
      (dpLoop a b blo bhi cnt i j2len best = ⟨alo, blo, 0⟩ ∨
        (1 ≤ (dpLoop a b blo bhi cnt i j2len best).size ∧
          alo ≤ (dpLoop a b blo bhi cnt i j2len best).a ∧
          (dpLoop a b blo bhi cnt i j2len best).a +
            (dpLoop a b blo bhi cnt i j2len best).size ≤ ahi ∧
          blo ≤ (dpLoop a b blo bhi cnt i j2len best).b ∧
          (dpLoop a b blo bhi cnt i j2len best).b +
            (dpLoop a b blo bhi cnt i j2len best).size ≤ bhi)) := by
  intro cnt
  induction cnt with
  | zero =>
    intro i j2len best _ _ _ hbest
    simp only [dpLoop]
    exact hbest
  | succ n ih =>
    intro i j2len best hi1 hi2 hold hbest
    simp only [dpLoop]
    have hrow := dpRow_inv blo bhi i alo ahi hi1 (by omega)
      (b2jGet b (a.getD i cNul)) j2len [] best hold (by simp) hbest
    exact ih (i + 1) _ _ (by omega) (by omega)
      (fun p hp => hrow.1 p hp) hrow.2

theorem extLeft_inv (a b : List Char) (alo blo ahi bhi : Nat) :
    ∀ (fuel : Nat) (m : FMatch),
      (m = ⟨alo, blo, 0⟩ ∨
        (1 ≤ m.size ∧ alo ≤ m.a ∧ m.a + m.size ≤ ahi ∧ blo ≤ m.b ∧ m.b + m.size ≤ bhi)) →
      (extLeft a b alo blo fuel m = ⟨alo, blo, 0⟩ ∨
        (1 ≤ (extLeft a b alo blo fuel m).size ∧ alo ≤ (extLeft a b alo blo fuel m).a ∧
          (extLeft a b alo blo fuel m).a + (extLeft a b alo blo fuel m).size ≤ ahi ∧
          blo ≤ (extLeft a b alo blo fuel m).b ∧
          (extLeft a b alo blo fuel m).b + (extLeft a b alo blo fuel m).size ≤ bhi)) := by
  intro fuel
  induction fuel with
  | zero =>
    intro m hm
    simp only [extLeft]
    exact hm
  | succ n ih =>
    intro m hm
    simp only [extLeft]
    split_ifs with hcond
    · apply ih
      rcases hm with rfl | hgood
      · exfalso
        dsimp only at hcond
        omega
      · right
        dsimp only at hcond ⊢
        refine ⟨by omega, by omega, by omega, by omega, by omega⟩
    · exact hm

theorem extRight_inv (a b : List Char) (alo blo ahi bhi : Nat) :
    ∀ (fuel : Nat) (m : FMatch),
      (m = ⟨alo, blo, 0⟩ ∨
        (1 ≤ m.size ∧ alo ≤ m.a ∧ m.a + m.size ≤ ahi ∧ blo ≤ m.b ∧ m.b + m.size ≤ bhi)) →
      (extRight a b ahi bhi fuel m = ⟨alo, blo, 0⟩ ∨
        (1 ≤ (extRight a b ahi bhi fuel m).size ∧ alo ≤ (extRight a b ahi bhi fuel m).a ∧
          (extRight a b ahi bhi fuel m).a + (extRight a b ahi bhi fuel m).size ≤ ahi ∧
          blo ≤ (extRight a b ahi bhi fuel m).b ∧
          (extRight a b ahi bhi fuel m).b + (extRight a b ahi bhi fuel m).size ≤ bhi)) := by
  intro fuel
  induction fuel with
  | zero =>
    intro m hm
    simp only [extRight]
    exact hm
  | succ n ih =>
    intro m hm
    simp only [extRight]
    split_ifs with hcond
    · apply ih
      rcases hm with rfl | hgood
      · right
        dsimp only at hcond ⊢
        refine ⟨by omega, by omega, by omega, by omega, by omega⟩
      · right
        dsimp only at hcond ⊢
        refine ⟨by omega, by omega, by omega, by omega, by omega⟩
    · exact hm

/-- The bounds used implicitly by `get_matching_blocks`'s recursion: a
nonempty longest match lies inside the `[alo, ahi) × [blo, bhi)` window. -/
theorem extLeft_id (a b : List Char) (alo blo : Nat) (m : FMatch) (hm : ¬ alo < m.a) :
    ∀ fuel, extLeft a b alo blo fuel m = m := by
  intro fuel
  cases fuel with
  | zero => rfl
  | succ n =>
    simp only [extLeft]
    rw [if_neg]
    intro hc
    exact hm hc.1

theorem extRight_id (a b : List Char) (ahi bhi : Nat) (m : FMatch)
    (hm : ¬ m.a + m.size < ahi) : ∀ fuel, extRight a b ahi bhi fuel m = m := by
  intro fuel
  cases fuel with
  | zero => rfl
  | succ n =>
    simp only [extRight]
    rw [if_neg]
    intro hc
    exact hm hc.1

theorem find_longest_match_bounds (a b : List Char) (alo ahi blo bhi : Nat)
    (h : (find_longest_match a b alo ahi blo bhi).size ≠ 0) :
    1 ≤ (find_longest_match a b alo ahi blo bhi).size ∧
    alo ≤ (find_longest_match a b alo ahi blo bhi).a ∧
    (find_longest_match a b alo ahi blo bhi).a +
      (find_longest_match a b alo ahi blo bhi).size ≤ ahi ∧
    blo ≤ (find_longest_match a b alo ahi blo bhi).b ∧
    (find_longest_match a b alo ahi blo bhi).b +
      (find_longest_match a b alo ahi blo bhi).size ≤ bhi := by
  by_cases hwin : alo ≤ ahi
  · have hloop := dpLoop_inv a b blo bhi alo ahi (ahi - alo) alo [] ⟨alo, blo, 0⟩
      (le_refl alo) (by omega) (by simp) (Or.inl rfl)
    simp only [find_longest_match] at h ⊢
    set D := dpLoop a b blo bhi (ahi - alo) alo [] ⟨alo, blo, 0⟩ with hD
    set M := extLeft a b alo blo D.a D with hM2
    have hleft := extLeft_inv a b alo blo ahi bhi D.a D hloop
    rw [← hM2] at hleft
    have hright := extRight_inv a b alo blo ahi bhi (ahi - (M.a + M.size)) M hleft
    rcases hright with heq | hgood
    · exfalso
      rw [heq] at h
      exact h rfl
    · exact ⟨hgood.1, hgood.2.1, hgood.2.2.1, hgood.2.2.2.1, hgood.2.2.2.2⟩
  · exfalso
    apply h
    have hz : ahi - alo = 0 := by omega
    simp only [find_longest_match, hz, dpLoop]
    rw [extLeft_id a b alo blo ⟨alo, blo, 0⟩ (by dsimp only; omega)]
    rw [extRight_id a b ahi bhi ⟨alo, blo, 0⟩ (by dsimp only; omega)]

/-! ## Invariants of `get_matching_blocks` and `find_duplicates` -/

theorem matchingBlocksAux_inv (a b : List Char) :
    ∀ (fuel alo ahi blo bhi : Nat),
      (∀ m ∈ matchingBlocksAux a b fuel alo ahi blo bhi,
          1 ≤ m.size ∧ alo ≤ m.a ∧ m.a + m.size ≤ ahi ∧ blo ≤ m.b ∧ m.b + m.size ≤ bhi) ∧
      List.Chain' (fun x y => x.a + x.size ≤ y.a ∧ x.b + x.size ≤ y.b)
        (matchingBlocksAux a b fuel alo ahi blo bhi) := by
  intro fuel
  induction fuel with
  | zero =>
    intro alo ahi blo bhi
    simp [matchingBlocksAux]
  | succ n ih =>
    intro alo ahi blo bhi
    simp only [matchingBlocksAux]
    by_cases h0 : (find_longest_match a b alo ahi blo bhi).size = 0
    · simp [h0]
    · rw [if_neg h0]
      obtain ⟨hb1, hb2, hb3, hb4, hb5⟩ := find_longest_match_bounds a b alo ahi blo bhi h0
      have IHL : ∀ x ∈ (if alo < (find_longest_match a b alo ahi blo bhi).a ∧
            blo < (find_longest_match a b alo ahi blo bhi).b then
            matchingBlocksAux a b n alo (find_longest_match a b alo ahi blo bhi).a blo
              (find_longest_match a b alo ahi blo bhi).b else []),
          1 ≤ x.size ∧ alo ≤ x.a ∧
            x.a + x.size ≤ (find_longest_match a b alo ahi blo bhi).a ∧ blo ≤ x.b ∧
            x.b + x.size ≤ (find_longest_match a b alo ahi blo bhi).b := by
        split_ifs with hc
        · exact (ih alo _ blo _).1
        · simp
      have CHL : List.Chain' (fun x y => x.a + x.size ≤ y.a ∧ x.b + x.size ≤ y.b)
          (if alo < (find_longest_match a b alo ahi blo bhi).a ∧
            blo < (find_longest_match a b alo ahi blo bhi).b then
            matchingBlocksAux a b n alo (find_longest_match a b alo ahi blo bhi).a blo
              (find_longest_match a b alo ahi blo bhi).b else []) := by
        split_ifs with hc
        · exact (ih alo _ blo _).2
        · simp
      have IHR : ∀ x ∈ (if (find_longest_match a b alo ahi blo bhi).a +
              (find_longest_match a b alo ahi blo bhi).size < ahi ∧
            (find_longest_match a b alo ahi blo bhi).b +
              (find_longest_match a b alo ahi blo bhi).size < bhi then
            matchingBlocksAux a b n
              ((find_longest_match a b alo ahi blo bhi).a +
                (find_longest_match a b alo ahi blo bhi).size) ahi
              ((find_longest_match a b alo ahi blo bhi).b +
                (find_longest_match a b alo ahi blo bhi).size) bhi else []),
          1 ≤ x.size ∧
            (find_longest_match a b alo ahi blo bhi).a +
              (find_longest_match a b alo ahi blo bhi).size ≤ x.a ∧
            x.a + x.size ≤ ahi ∧
            (find_longest_match a b alo ahi blo bhi).b +
              (find_longest_match a b alo ahi blo bhi).size ≤ x.b ∧
            x.b + x.size ≤ bhi := by
        split_ifs with hc
        · exact (ih _ ahi _ bhi).1
        · simp
      have CHR : List.Chain' (fun x y => x.a + x.size ≤ y.a ∧ x.b + x.size ≤ y.b)
          (if (find_longest_match a b alo ahi blo bhi).a +
              (find_longest_match a b alo ahi blo bhi).size < ahi ∧
            (find_longest_match a b alo ahi blo bhi).b +
              (find_longest_match a b alo ahi blo bhi).size < bhi then
            matchingBlocksAux a b n
              ((find_longest_match a b alo ahi blo bhi).a +
                (find_longest_match a b alo ahi blo bhi).size) ahi
              ((find_longest_match a b alo ahi blo bhi).b +
                (find_longest_match a b alo ahi blo bhi).size) bhi else []) := by
        split_ifs with hc
        · exact (ih _ ahi _ bhi).2
        · simp
      constructor
      · intro x hx
        rcases List.mem_append.1 hx with hxl | hxr
        · have := IHL x hxl
          refine ⟨this.1, this.2.1, by omega, this.2.2.2.1, by omega⟩
        · rcases List.mem_cons.1 hxr with rfl | hxr2
          · exact ⟨hb1, hb2, hb3, hb4, hb5⟩
          · have := IHR x hxr2
            refine ⟨this.1, by omega, this.2.2.1, by omega, this.2.2.2.2⟩
      · rw [List.chain'_append]
        refine ⟨CHL, ?_, ?_⟩
        · refine List.chain'_cons'.2 ⟨?_, CHR⟩
          intro y hy
          have := IHR y (List.mem_of_mem_head? hy)
          exact ⟨this.2.1, this.2.2.2.1⟩
        · intro x hxl y hyh
          have hx := IHL x (List.mem_of_mem_getLast? hxl)
          obtain rfl : (find_longest_match a b alo ahi blo bhi) = y := Option.some.inj hyh
          exact ⟨hx.2.2.1, hx.2.2.2.2⟩

/-- Any fuel exceeding the window size gives the same block list: the source's
unbounded recursion never needs more than `ahi - alo` levels, so the fuel in
the model is never exhausted. -/
theorem matchingBlocksAux_fuel_eq (a b : List Char) :
    ∀ (f1 f2 alo ahi blo bhi : Nat), ahi - alo < f1 → ahi - alo < f2 →
      matchingBlocksAux a b f1 alo ahi blo bhi = matchingBlocksAux a b f2 alo ahi blo bhi := by
  intro f1
  induction f1 with
  | zero =>
    intro f2 alo ahi blo bhi h1 _
    omega
  | succ n ih =>
    intro f2 alo ahi blo bhi h1 h2
    cases f2 with
    | zero => omega
    | succ k =>
      simp only [matchingBlocksAux]
      by_cases h0 : (find_longest_match a b alo ahi blo bhi).size = 0
      · rw [if_pos h0, if_pos h0]
      · rw [if_neg h0, if_neg h0]
        obtain ⟨hb1, hb2, hb3, hb4, hb5⟩ := find_longest_match_bounds a b alo ahi blo bhi h0
        congr 1
        · split_ifs with hc
          · exact ih k alo _ blo _ (by omega) (by omega)
          · rfl
        · congr 1
          split_ifs with hc
          · exact ih k _ ahi _ bhi (by omega) (by omega)
          · rfl

theorem mergeAdjacent_inv (la lb : Nat) :
    ∀ (l : List FMatch) (cur : FMatch),
      (cur = ⟨0, 0, 0⟩ ∨ (1 ≤ cur.size ∧ cur.a + cur.size ≤ la ∧ cur.b + cur.size ≤ lb)) →
      (∀ m ∈ l, 1 ≤ m.size ∧ m.a + m.size ≤ la ∧ m.b + m.size ≤ lb) →
      List.Chain' (fun x y => x.a + x.size ≤ y.a ∧ x.b + x.size ≤ y.b) (cur :: l) →
      (∀ m ∈ mergeAdjacent cur l,
          1 ≤ m.size ∧ m.a + m.size ≤ la ∧ m.b + m.size ≤ lb) ∧
      List.Chain' (fun x y => x.a + x.size ≤ y.a ∧ x.b + x.size ≤ y.b)
        (mergeAdjacent cur l) ∧
      (∀ m ∈ mergeAdjacent cur l, cur.a ≤ m.a ∧ cur.b ≤ m.b) := by
  intro l
  induction l with
  | nil =>
    intro cur hcur _ _
    simp only [mergeAdjacent]
    by_cases hz : cur.size = 0
    · simp [hz]
    · rw [if_neg hz]
      have hgood : 1 ≤ cur.size ∧ cur.a + cur.size ≤ la ∧ cur.b + cur.size ≤ lb := by
        rcases hcur with rfl | hg
        · simp at hz
        · exact hg
      refine ⟨?_, by simp, ?_⟩
      · intro m hm
        obtain rfl : m = cur := by simpa using hm
        exact hgood
      · intro m hm
        obtain rfl : m = cur := by simpa using hm
        exact ⟨le_refl _, le_refl _⟩
  | cons hd tl ih =>
    intro cur hcur hl hchain
    have hhd : 1 ≤ hd.size ∧ hd.a + hd.size ≤ la ∧ hd.b + hd.size ≤ lb := hl hd (by simp)
    have htl : ∀ m ∈ tl, 1 ≤ m.size ∧ m.a + m.size ≤ la ∧ m.b + m.size ≤ lb :=
      fun m hm => hl m (by simp [hm])
    have hchain2 := List.chain'_cons'.1 hchain
    have hrelcur : cur.a + cur.size ≤ hd.a ∧ cur.b + cur.size ≤ hd.b := hchain2.1 hd rfl
    have hchainhd : List.Chain' (fun x y => x.a + x.size ≤ y.a ∧ x.b + x.size ≤ y.b)
        (hd :: tl) := hchain2.2
    simp only [mergeAdjacent]
    by_cases hadj : cur.a + cur.size = hd.a ∧ cur.b + cur.size = hd.b
    · rw [if_pos hadj]
      have hmerged : (⟨cur.a, cur.b, cur.size + hd.size⟩ : FMatch) = ⟨0, 0, 0⟩ ∨
          (1 ≤ (⟨cur.a, cur.b, cur.size + hd.size⟩ : FMatch).size ∧
            (⟨cur.a, cur.b, cur.size + hd.size⟩ : FMatch).a +
              (⟨cur.a, cur.b, cur.size + hd.size⟩ : FMatch).size ≤ la ∧
            (⟨cur.a, cur.b, cur.size + hd.size⟩ : FMatch).b +
              (⟨cur.a, cur.b, cur.size + hd.size⟩ : FMatch).size ≤ lb) := by
        right
        dsimp only
        refine ⟨by omega, by omega, by omega⟩
      have hch2 : List.Chain' (fun x y => x.a + x.size ≤ y.a ∧ x.b + x.size ≤ y.b)
          ((⟨cur.a, cur.b, cur.size + hd.size⟩ : FMatch) :: tl) := by
        refine List.chain'_cons'.2 ⟨?_, (List.chain'_cons'.1 hchainhd).2⟩
        intro y hy
        have hRy := (List.chain'_cons'.1 hchainhd).1 y hy
        dsimp only
        exact ⟨by omega, by omega⟩
      have hres := ih ⟨cur.a, cur.b, cur.size + hd.size⟩ hmerged htl hch2
      refine ⟨hres.1, hres.2.1, ?_⟩
      intro m hm
      exact hres.2.2 m hm
    · rw [if_neg hadj]
      have ihres := ih hd (Or.inr hhd) htl hchainhd
      by_cases hz : cur.size = 0
      · rw [if_pos hz]
        simp only [List.nil_append]
        refine ⟨ihres.1, ihres.2.1, ?_⟩
        intro m hm
        have hcur0 : cur = ⟨0, 0, 0⟩ := by
          rcases hcur with rfl | hg
          · rfl
          · omega
        rw [hcur0]
        exact ⟨Nat.zero_le _, Nat.zero_le _⟩
      · rw [if_neg hz]
        simp only [List.singleton_append]
        have hcurgood : 1 ≤ cur.size ∧ cur.a + cur.size ≤ la ∧ cur.b + cur.size ≤ lb := by
          rcases hcur with rfl | hg
          · simp at hz
          · exact hg
        refine ⟨?_, ?_, ?_⟩
        · intro m hm
          rcases List.mem_cons.1 hm with rfl | hm2
          · exact hcurgood
          · exact ihres.1 m hm2
        · refine List.chain'_cons'.2 ⟨?_, ihres.2.1⟩
          intro y hy
          have h3 := ihres.2.2 y (List.mem_of_mem_head? hy)
          exact ⟨by omega, by omega⟩
        · intro m hm
          rcases List.mem_cons.1 hm with rfl | hm2
          · exact ⟨le_refl _, le_refl _⟩
          · have h3 := ihres.2.2 m hm2
            exact ⟨by omega, by omega⟩

theorem get_matching_blocks_inv (a b : List Char) :
    (∀ m ∈ get_matching_blocks a b, m.a + m.size ≤ a.length ∧ m.b + m.size ≤ b.length) ∧
    (∀ m ∈ get_matching_blocks a b, 1 ≤ m.size ∨ m = ⟨a.length, b.length, 0⟩) ∧
    List.Chain' (fun x y => x.a + x.size ≤ y.a ∧ x.b + x.size ≤ y.b)
      (get_matching_blocks a b) := by
  have hbase := matchingBlocksAux_inv a b (a.length + 1) 0 a.length 0 b.length
  have hchain0 : List.Chain' (fun x y => x.a + x.size ≤ y.a ∧ x.b + x.size ≤ y.b)
      ((⟨0, 0, 0⟩ : FMatch) :: matchingBlocksAux a b (a.length + 1) 0 a.length 0 b.length) := by
    refine List.chain'_cons'.2 ⟨?_, hbase.2⟩
    intro y _
    exact ⟨Nat.zero_le _, Nat.zero_le _⟩
  have hmerge := mergeAdjacent_inv a.length b.length
    (matchingBlocksAux a b (a.length + 1) 0 a.length 0 b.length) ⟨0, 0, 0⟩
    (Or.inl rfl) (fun m hm => ⟨(hbase.1 m hm).1, (hbase.1 m hm).2.2.1,
      (hbase.1 m hm).2.2.2.2⟩) hchain0
  unfold get_matching_blocks
  refine ⟨?_, ?_, ?_⟩
  · intro m hm
    rcases List.mem_append.1 hm with hm1 | hm2
    · exact ⟨(hmerge.1 m hm1).2.1, (hmerge.1 m hm1).2.2⟩
    · obtain rfl : m = (⟨a.length, b.length, 0⟩ : FMatch) := by simpa using hm2
      exact ⟨by simp, by simp⟩
  · intro m hm
    rcases List.mem_append.1 hm with hm1 | hm2
    · exact Or.inl (hmerge.1 m hm1).1
    · obtain rfl : m = (⟨a.length, b.length, 0⟩ : FMatch) := by simpa using hm2
      exact Or.inr rfl
  · rw [List.chain'_append]
    refine ⟨hmerge.2.1, by simp, ?_⟩
    intro x hx y hy
    obtain rfl : (⟨a.length, b.length, 0⟩ : FMatch) = y := by simpa using hy
    have hgood := hmerge.1 x (List.mem_of_mem_getLast? hx)
    exact ⟨hgood.2.1, hgood.2.2⟩

theorem insertionSort_by_offset_of_sorted :
    ∀ (l : List DupBlock), List.Pairwise (fun x y => x.offset ≤ y.offset) l →
      List.insertionSort (fun x y : DupBlock => x.offset ≤ y.offset) l = l := by
  intro l
  induction l with
  | nil => intro _; rfl
  | cons a t ih =>
    intro hp
    rw [List.insertionSort_cons _ (fun b hb => (List.pairwise_cons.1 hp).1 b hb),
      ih (List.Pairwise.of_cons hp)]

/-- C10: for all inputs and `min_len ≥ 1`, `find_duplicates` returns blocks of
size at least `min_len` (so never the zero-size sentinel), with both ends in
bounds, pairwise non-overlapping candidate ranges, in ascending candidate
order. -/
theorem claim_C10 (value_text ref_text : List Char) (min_len : Nat) (hmin : 0 < min_len) :
    (∀ d ∈ find_duplicates value_text ref_text min_len,
        min_len ≤ d.size ∧ 0 < d.size ∧ d.offset + d.size ≤ value_text.length ∧
          d.offset_ref + d.size ≤ ref_text.length) ∧
    List.Pairwise (fun x y => x.offset + x.size ≤ y.offset)
      (find_duplicates value_text ref_text min_len) := by
  obtain ⟨hbounds, _, hchain⟩ := get_matching_blocks_inv value_text ref_text
  haveI : IsTrans FMatch (fun x y => x.a + x.size ≤ y.a ∧ x.b + x.size ≤ y.b) :=
    ⟨fun x y z h1 h2 => ⟨by omega, by omega⟩⟩
  have hPW : List.Pairwise (fun x y => x.a + x.size ≤ y.a ∧ x.b + x.size ≤ y.b)
      (get_matching_blocks value_text ref_text) := List.chain'_iff_pairwise.1 hchain
  have hPWf := hPW.filter (fun m => decide (min_len ≤ m.size))
  have hPWm : List.Pairwise (fun x y => x.offset + x.size ≤ y.offset)
      (((get_matching_blocks value_text ref_text).filter
          (fun m => decide (min_len ≤ m.size))).map
        (fun m => DupBlock.mk m.a m.size m.b)) := by
    rw [List.pairwise_map]
    exact hPWf.imp (fun h => h.1)
  have hsorted : List.Pairwise (fun x y : DupBlock => x.offset ≤ y.offset)
      (((get_matching_blocks value_text ref_text).filter
          (fun m => decide (min_len ≤ m.size))).map
        (fun m => DupBlock.mk m.a m.size m.b)) :=
    hPWm.imp (fun h => by omega)
  have heq : find_duplicates value_text ref_text min_len =
      ((get_matching_blocks value_text ref_text).filter
          (fun m => decide (min_len ≤ m.size))).map
        (fun m => DupBlock.mk m.a m.size m.b) := by
    simp only [find_duplicates]
    exact insertionSort_by_offset_of_sorted _ hsorted
  rw [heq]
  refine ⟨?_, hPWm⟩
  intro d hd
  obtain ⟨m, hmf, rfl⟩ := List.mem_map.1 hd
  obtain ⟨hmb, hms⟩ := List.mem_filter.1 hmf
  have hms2 : min_len ≤ m.size := of_decide_eq_true hms
  have hbd := hbounds m hmb
  dsimp only
  exact ⟨hms2, by omega, hbd.1, hbd.2⟩

/-- Witness for C10 at a concrete pair of texts and `min_len = 1`. -/
theorem claim_C10_witness :
    (∀ d ∈ find_duplicates "ab".data "ab".data 1,
        1 ≤ d.size ∧ 0 < d.size ∧ d.offset + d.size ≤ "ab".data.length ∧
          d.offset_ref + d.size ≤ "ab".data.length) ∧
    List.Pairwise (fun x y => x.offset + x.size ≤ y.offset)
      (find_duplicates "ab".data "ab".data 1) :=
  claim_C10 "ab".data "ab".data 1 (by decide)

/-! ## Compositional facts about whitespace collapsing (towards C1) -/

theorem collapseWsAux_cons_ws_false {c : Char} (l : List Char) (hc : isWs c = true) :
    collapseWsAux (c :: l) false = ' ' :: collapseWsAux l true := by
  simp [collapseWsAux, hc]

theorem collapseWsAux_cons_ws_true {c : Char} (l : List Char) (hc : isWs c = true) :
    collapseWsAux (c :: l) true = collapseWsAux l true := by
  simp [collapseWsAux, hc]

theorem collapseWsAux_head_indep {l : List Char}
    (h : ∀ c, l.head? = some c → isWs c = false) (w1 w2 : Bool) :
    collapseWsAux l w1 = collapseWsAux l w2 := by
  cases l with
  | nil => rfl
  | cons c rest =>
    have hc : isWs c = false := h c rfl
    rw [collapseWsAux_head_nonws rest hc, collapseWsAux_head_nonws rest hc]

theorem collapseWsAux_append_head {q : List Char}
    (hq : ∀ c, q.head? = some c → isWs c = false) :
    ∀ (u : List Char) (w : Bool),
      collapseWsAux (u ++ q) w = collapseWsAux u w ++ collapseWsAux q false := by
  intro u
  induction u with
  | nil =>
    intro w
    rw [List.nil_append, show collapseWsAux ([] : List Char) w = [] from rfl, List.nil_append]
    exact collapseWsAux_head_indep hq w false
  | cons c rest ih =>
    intro w
    rw [List.cons_append]
    by_cases hc : isWs c
    · cases w with
      | false =>
        rw [collapseWsAux_cons_ws_false _ hc, collapseWsAux_cons_ws_false _ hc, ih true,
          List.cons_append]
      | true =>
        rw [collapseWsAux_cons_ws_true _ hc, collapseWsAux_cons_ws_true _ hc, ih true]
    · have hc2 : isWs c = false := eq_false_of_ne_true hc
      rw [collapseWsAux_head_nonws _ hc2, collapseWsAux_head_nonws _ hc2, ih false,
        List.cons_append]

theorem collapseWsAux_append_last {p : List Char} :
    p ≠ [] → (∀ x, p.getLast? = some x → isWs x = false) →
    ∀ (w : Bool) (q : List Char),
      collapseWsAux (p ++ q) w = collapseWsAux p w ++ collapseWsAux q false := by
  induction p with
  | nil => intro h; exact absurd rfl h
  | cons c rest ih =>
    intro _ hlast w q
    cases rest with
    | nil =>
      have hc : isWs c = false := hlast c (by simp)
      rw [List.cons_append, List.nil_append, collapseWsAux_head_nonws _ hc,
        collapseWsAux_head_nonws _ hc]
      rfl
    | cons d rest2 =>
      have hlast2 : ∀ x, (d :: rest2).getLast? = some x → isWs x = false := by
        intro x hx
        apply hlast
        rw [List.getLast?_cons_cons]
        exact hx
      have hih := ih (by simp) hlast2
      by_cases hc : isWs c
      · cases w with
        | false =>
          rw [List.cons_append, collapseWsAux_cons_ws_false _ hc,
            collapseWsAux_cons_ws_false _ hc, hih true q, List.cons_append]
        | true =>
          rw [List.cons_append, collapseWsAux_cons_ws_true _ hc,
            collapseWsAux_cons_ws_true _ hc, hih true q]
      · have hc2 : isWs c = false := eq_false_of_ne_true hc
        rw [List.cons_append, collapseWsAux_head_nonws _ hc2, collapseWsAux_head_nonws _ hc2,
          hih false q, List.cons_append]

theorem collapseWsAux_all_ws_true {p : List Char} (h : ∀ c ∈ p, isWs c = true) :
    ∀ q : List Char, collapseWsAux (p ++ q) true = collapseWsAux q true := by
  induction p with
  | nil => intro q; rfl
  | cons c rest ih =>
    intro q
    have hc : isWs c = true := h c (by simp)
    have hrest : ∀ c ∈ rest, isWs c = true := fun c hc2 => h c (by simp [hc2])
    rw [List.cons_append, collapseWsAux_cons_ws_true _ hc]
    exact ih hrest q

theorem collapseWsAux_all_ws_false {p : List Char} (h : ∀ c ∈ p, isWs c = true)
    (hne : p ≠ []) (q : List Char) :
    collapseWsAux (p ++ q) false = ' ' :: collapseWsAux q true := by
  cases p with
  | nil => exact absurd rfl hne
  | cons c rest =>
    have hc : isWs c = true := h c (by simp)
    have hrest : ∀ c ∈ rest, isWs c = true := fun c hc2 => h c (by simp [hc2])
    rw [List.cons_append, collapseWsAux_cons_ws_false _ hc, collapseWsAux_all_ws_true hrest q]

theorem dropWhile_all_ws_append {p : List Char} (h : ∀ c ∈ p, isWs c = true) (q : List Char) :
    (p ++ q).dropWhile isWs = q.dropWhile isWs := by
  induction p with
  | nil => rfl
  | cons c rest ih =>
    have hc : isWs c = true := h c (by simp)
    have hrest : ∀ c ∈ rest, isWs c = true := fun c hc2 => h c (by simp [hc2])
    simp only [List.cons_append, List.dropWhile_cons, hc, if_true, ite_true]
    exact ih hrest

theorem head?_dropWhile_nonws : ∀ (l : List Char) (c : Char),
    (l.dropWhile isWs).head? = some c → isWs c = false := by
  intro l
  induction l with
  | nil => intro c h; simp at h
  | cons a rest ih =>
    intro c h
    by_cases ha : isWs a
    · rw [List.dropWhile_cons, if_pos ha] at h
      exact ih c h
    · rw [List.dropWhile_cons, if_neg ha] at h
      obtain rfl : a = c := Option.some.inj h
      exact eq_false_of_ne_true ha

/-! ### The two ends of `stripWs` -/

theorem getLast?_suffix_ne_nil {α : Type} {z y : List α} (h : z <:+ y) (hz : z ≠ []) :
    z.getLast? = y.getLast? := by
  obtain ⟨w, rfl⟩ := h
  rw [List.getLast?_append]
  cases hzl : z.getLast? with
  | none =>
    exfalso
    rw [List.getLast?_eq_none_iff] at hzl
    exact hz hzl
  | some x => rfl

theorem stripWs_head_nonws (l : List Char) :
    ∀ c, (stripWs l).head? = some c → isWs c = false := by
  intro c h
  unfold stripWs at h
  rw [List.head?_reverse] at h
  have hzne : (l.dropWhile isWs).reverse.dropWhile isWs ≠ [] := by
    intro h0
    rw [h0] at h
    simp at h
  rw [getLast?_suffix_ne_nil (List.dropWhile_suffix isWs) hzne] at h
  rw [List.getLast?_reverse] at h
  exact head?_dropWhile_nonws _ c h

theorem stripWs_last_nonws (l : List Char) :
    ∀ c, (stripWs l).getLast? = some c → isWs c = false := by
  intro c h
  unfold stripWs at h
  rw [List.getLast?_reverse] at h
  exact head?_dropWhile_nonws _ c h

theorem stripWs_eq_nil_all_ws {l : List Char} (h : stripWs l = []) :
    ∀ c ∈ l, isWs c = true := by
  unfold stripWs at h
  have h2 : (l.dropWhile isWs).reverse.dropWhile isWs = [] := by
    have := congrArg List.reverse h
    simpa using this
  rw [List.dropWhile_eq_nil_iff] at h2
  intro c hc
  rw [← List.takeWhile_append_dropWhile isWs l] at hc
  rcases List.mem_append.1 hc with hc1 | hc2
  · exact List.mem_takeWhile_imp hc1
  · exact h2 c (by simpa using hc2)

theorem stripWs_infix (l : List Char) : stripWs l <:+: l := by
  unfold stripWs
  have h0 : (l.dropWhile isWs).reverse.dropWhile isWs <:+ (l.dropWhile isWs).reverse :=
    List.dropWhile_suffix isWs
  have h1 := List.reverse_prefix.2 h0
  rw [List.reverse_reverse] at h1
  exact h1.isInfix.trans (List.dropWhile_suffix isWs).isInfix

theorem stripWs_decomp (l : List Char) :
    l = l.takeWhile isWs ++
      (stripWs l ++ ((l.dropWhile isWs).reverse.takeWhile isWs).reverse) := by
  have h1 : l.dropWhile isWs =
      stripWs l ++ ((l.dropWhile isWs).reverse.takeWhile isWs).reverse := by
    unfold stripWs
    have h2 := List.takeWhile_append_dropWhile isWs (l.dropWhile isWs).reverse
    have h3 := congrArg List.reverse h2
    simp only [List.reverse_append, List.reverse_reverse] at h3
    exact h3.symm
  conv_lhs => rw [← List.takeWhile_append_dropWhile isWs l]
  rw [← h1]

/-! ### Lowercasing and whitespace -/

theorem toLower_of_isWs {c : Char} (h : isWs c = true) : Char.toLower c = c := by
  simp only [isWs, Bool.or_eq_true, decide_eq_true_eq] at h
  rcases h with (((((h | h) | h) | h) | h) | h) <;> subst h <;> decide

theorem isWs_toLower_eq_false {c : Char} (h : isWs c = false) :
    isWs (Char.toLower c) = false := by
  unfold Char.toLower
  dsimp only
  split_ifs with hn
  · obtain ⟨h1, h2⟩ := hn
    obtain ⟨n, hn2⟩ : ∃ n, c.toNat = n := ⟨_, rfl⟩
    rw [hn2] at h1 h2 ⊢
    interval_cases n <;> decide
  · exact h

/-! ### `normalize_whitespace` in terms of the stripped text -/

theorem dropWhile_nonws_head {C : List Char}
    (hh : ∀ c, C.head? = some c → isWs c = false) : C.dropWhile isWs = C := by
  cases C with
  | nil => rfl
  | cons c rest => rw [List.dropWhile_cons, if_neg (by simp [hh c rfl])]

theorem stripWs_pre_post {pre post C : List Char}
    (hpre : ∀ c ∈ pre, isWs c = true) (hpost : ∀ c ∈ post, isWs c = true)
    (hh : ∀ c, C.head? = some c → isWs c = false)
    (hl : ∀ c, C.getLast? = some c → isWs c = false) :
    stripWs (pre ++ (C ++ post)) = C := by
  cases C with
  | nil =>
    apply stripWs_all_ws
    intro c hc
    simp only [List.nil_append] at hc
    rcases List.mem_append.1 hc with h1 | h2
    · exact hpre c h1
    · exact hpost c h2
  | cons c0 rest =>
    unfold stripWs
    rw [dropWhile_all_ws_append hpre]
    have hd1 : ((c0 :: rest) ++ post).dropWhile isWs = (c0 :: rest) ++ post := by
      apply dropWhile_nonws_head
      intro c h
      rw [List.cons_append] at h
      obtain rfl : c0 = c := Option.some.inj h
      exact hh c0 rfl
    rw [hd1, List.reverse_append]
    rw [dropWhile_all_ws_append (fun c hc => hpost c (List.mem_reverse.1 hc))]
    have hd2 : (c0 :: rest).reverse.dropWhile isWs = (c0 :: rest).reverse := by
      apply dropWhile_nonws_head
      intro c h
      rw [List.head?_reverse] at h
      exact hl c h
    rw [hd2, List.reverse_reverse]

theorem normalize_eq_strip_collapse (l : List Char) :
    normalize_whitespace l = collapseWsAux (stripWs l) false := by
  by_cases hX : stripWs l = []
  · rw [hX]
    exact normalize_of_all_ws (stripWs_eq_nil_all_ws hX)
  · have hdec := stripWs_decomp l
    have hpre : ∀ c ∈ l.takeWhile isWs, isWs c = true := fun c hc => List.mem_takeWhile_imp hc
    have hpost : ∀ c ∈ ((l.dropWhile isWs).reverse.takeWhile isWs).reverse, isWs c = true :=
      fun c hc => List.mem_takeWhile_imp (List.mem_reverse.1 hc)
    have hh := stripWs_head_nonws l
    have hl := stripWs_last_nonws l
    have hXapp : ∀ w : Bool,
        collapseWsAux (stripWs l ++ ((l.dropWhile isWs).reverse.takeWhile isWs).reverse) w
          = collapseWsAux (stripWs l) false
            ++ collapseWsAux ((l.dropWhile isWs).reverse.takeWhile isWs).reverse false := by
      intro w
      rw [collapseWsAux_append_last hX hl w, collapseWsAux_head_indep hh w false]
    have hh2 : ∀ c, (collapseWsAux (stripWs l) false).head? = some c → isWs c = false := by
      cases hXs : stripWs l with
      | nil => exact absurd hXs hX
      | cons c0 r =>
        have hc0 : isWs c0 = false := hh c0 (by rw [hXs]; rfl)
        rw [collapseWsAux_head_nonws r hc0]
        intro c h
        obtain rfl : c0 = c := Option.some.inj h
        exact hc0
    have hl2 : ∀ c, (collapseWsAux (stripWs l) false).getLast? = some c → isWs c = false := by
      obtain ⟨d, hd, hdw⟩ := collapseWsAux_last_nonws (stripWs l) false hl hX
      intro c h
      rw [hd] at h
      obtain rfl : d = c := Option.some.inj h
      exact hdw
    have hsp : ∀ c ∈ [' '], isWs c = true := by
      intro c hc
      rw [List.mem_singleton] at hc
      subst hc
      decide
    have hnilws : ∀ c ∈ ([] : List Char), isWs c = true := by simp
    unfold normalize_whitespace
    conv_lhs => rw [hdec]
    by_cases hprenil : l.takeWhile isWs = []
    · rw [hprenil, List.nil_append, hXapp false]
      by_cases hpostnil : ((l.dropWhile isWs).reverse.takeWhile isWs).reverse = []
      · rw [hpostnil, show collapseWsAux ([] : List Char) false = [] from rfl]
        simpa using stripWs_pre_post hnilws hnilws hh2 hl2
      · have hpost1 : collapseWsAux ((l.dropWhile isWs).reverse.takeWhile isWs).reverse false
            = [' '] := by
          have h2 := collapseWsAux_all_ws_false hpost hpostnil []
          rw [List.append_nil] at h2
          simpa using h2
        rw [hpost1]
        simpa using stripWs_pre_post hnilws hsp hh2 hl2
    · rw [collapseWsAux_all_ws_false hpre hprenil, hXapp true]
      by_cases hpostnil : ((l.dropWhile isWs).reverse.takeWhile isWs).reverse = []
      · rw [hpostnil, show collapseWsAux ([] : List Char) false = [] from rfl]
        simpa using stripWs_pre_post hsp hnilws hh2 hl2
      · have hpost1 : collapseWsAux ((l.dropWhile isWs).reverse.takeWhile isWs).reverse false
            = [' '] := by
          have h2 := collapseWsAux_all_ws_false hpost hpostnil []
          rw [List.append_nil] at h2
          simpa using h2
        rw [hpost1]
        simpa using stripWs_pre_post hsp hsp hh2 hl2

/-! ### Step equations and slicing properties of the index map -/

theorem buildMapAux_cons_ws_true {c : Char} (l : List Char) (idx : Nat) (hc : isWs c = true) :
    buildMapAux (c :: l) idx true = buildMapAux l (idx + 1) true := by
  simp [buildMapAux, hc]

theorem buildMapAux_cons_ws_false {c : Char} (l : List Char) (idx : Nat) (hc : isWs c = true) :
    buildMapAux (c :: l) idx false = idx :: buildMapAux l (idx + 1) true := by
  simp [buildMapAux, hc]

theorem buildMapAux_cons_nonws {c : Char} (l : List Char) (idx : Nat) (w : Bool)
    (hc : isWs c = false) :
    buildMapAux (c :: l) idx w = idx :: buildMapAux l (idx + 1) false := by
  simp [buildMapAux, hc]

theorem buildMapAux_succ : ∀ (l : List Char) (idx : Nat) (w : Bool),
    buildMapAux l (idx + 1) w = (buildMapAux l idx w).map (fun x => x + 1) := by
  intro l
  induction l with
  | nil => intro idx w; simp [buildMapAux]
  | cons c rest ih =>
    intro idx w
    by_cases hc : isWs c
    · cases w with
      | true =>
        rw [buildMapAux_cons_ws_true rest (idx + 1) hc, buildMapAux_cons_ws_true rest idx hc,
          ih (idx + 1) true]
      | false =>
        rw [buildMapAux_cons_ws_false rest (idx + 1) hc, buildMapAux_cons_ws_false rest idx hc,
          ih (idx + 1) true, List.map_cons]
    · have hc2 : isWs c = false := eq_false_of_ne_true hc
      rw [buildMapAux_cons_nonws rest (idx + 1) w hc2, buildMapAux_cons_nonws rest idx w hc2,
        ih (idx + 1) false, List.map_cons]

theorem getD_map_add_one {M : List Nat} {e : Nat} (h : e < M.length) :
    (M.map (fun x => x + 1)).getD e 0 = M.getD e 0 + 1 := by
  rw [List.getD_eq_getElem (M.map (fun x => x + 1)) 0 (by simpa using h),
    List.getD_eq_getElem M 0 h, List.getElem_map]

theorem buildMapAux_take : ∀ (l : List Char) (w : Bool) (e : Nat),
    e ≤ (collapseWsAux l w).length →
    collapseWsAux (l.take ((buildMapAux l 0 w).getD e 0)) w = (collapseWsAux l w).take e := by
  intro l
  induction l with
  | nil =>
    intro w e he
    have he0 : e = 0 := by
      simp only [collapseWsAux, List.length_nil] at he
      omega
    subst he0
    simp [buildMapAux, collapseWsAux]
  | cons c rest ih =>
    intro w e he
    by_cases hc : isWs c
    · cases w with
      | true =>
        rw [collapseWsAux_cons_ws_true rest hc] at he ⊢
        rw [buildMapAux_cons_ws_true rest 0 hc, buildMapAux_succ rest 0 true]
        have hlen := buildMapAux_length rest 0 true
        rw [getD_map_add_one (by omega), List.take_succ_cons, collapseWsAux_cons_ws_true _ hc]
        exact ih true e he
      | false =>
        rw [collapseWsAux_cons_ws_false rest hc] at he ⊢
        rw [buildMapAux_cons_ws_false rest 0 hc, buildMapAux_succ rest 0 true]
        cases e with
        | zero =>
          rw [List.getD_cons_zero]
          simp [collapseWsAux]
        | succ e2 =>
          rw [List.getD_cons_succ]
          have hlen := buildMapAux_length rest 0 true
          simp only [List.length_cons] at he
          rw [getD_map_add_one (by omega), List.take_succ_cons,
            collapseWsAux_cons_ws_false _ hc, List.take_succ_cons, ih true e2 (by omega)]
    · have hc2 : isWs c = false := eq_false_of_ne_true hc
      rw [collapseWsAux_head_nonws rest hc2] at he ⊢
      rw [buildMapAux_cons_nonws rest 0 w hc2, buildMapAux_succ rest 0 false]
      cases e with
      | zero =>
        rw [List.getD_cons_zero]
        simp [collapseWsAux]
      | succ e2 =>
        rw [List.getD_cons_succ]
        have hlen := buildMapAux_length rest 0 false
        simp only [List.length_cons] at he
        rw [getD_map_add_one (by omega), List.take_succ_cons,
          collapseWsAux_head_nonws _ hc2, List.take_succ_cons, ih false e2 (by omega)]

theorem buildMapAux_slice : ∀ (l : List Char) (w : Bool) (s e : Nat),
    s ≤ e → e ≤ (collapseWsAux l w).length →
    collapseWsAux ((l.drop ((buildMapAux l 0 w).getD s 0)).take
        ((buildMapAux l 0 w).getD e 0 - (buildMapAux l 0 w).getD s 0)) false
      = ((collapseWsAux l w).drop s).take (e - s) := by
  intro l
  induction l with
  | nil =>
    intro w s e hse he
    have he0 : e = 0 := by
      simp only [collapseWsAux, List.length_nil] at he
      omega
    subst he0
    have hs0 : s = 0 := by omega
    subst hs0
    simp [buildMapAux, collapseWsAux]
  | cons c rest ih =>
    intro w s e hse he
    by_cases hc : isWs c
    · cases w with
      | true =>
        rw [collapseWsAux_cons_ws_true rest hc] at he ⊢
        rw [buildMapAux_cons_ws_true rest 0 hc, buildMapAux_succ rest 0 true]
        have hlen := buildMapAux_length rest 0 true
        rw [getD_map_add_one (by omega), getD_map_add_one (by omega)]
        simp only [List.drop_succ_cons, Nat.add_sub_add_right]
        exact ih true s e hse he
      | false =>
        rw [collapseWsAux_cons_ws_false rest hc] at he ⊢
        rw [buildMapAux_cons_ws_false rest 0 hc, buildMapAux_succ rest 0 true]
        have hlen := buildMapAux_length rest 0 true
        simp only [List.length_cons] at he
        cases s with
        | zero =>
          cases e with
          | zero => simp [collapseWsAux]
          | succ e2 =>
            rw [List.getD_cons_zero, List.getD_cons_succ, getD_map_add_one (by omega)]
            simp only [List.drop_zero, Nat.sub_zero, List.take_succ_cons]
            rw [collapseWsAux_cons_ws_false _ hc, buildMapAux_take rest true e2 (by omega)]
        | succ s2 =>
          cases e with
          | zero => omega
          | succ e2 =>
            simp only [List.getD_cons_succ]
            rw [getD_map_add_one (by omega), getD_map_add_one (by omega)]
            simp only [List.drop_succ_cons, Nat.add_sub_add_right]
            exact ih true s2 e2 (by omega) (by omega)
    · have hc2 : isWs c = false := eq_false_of_ne_true hc
      rw [collapseWsAux_head_nonws rest hc2] at he ⊢
      rw [buildMapAux_cons_nonws rest 0 w hc2, buildMapAux_succ rest 0 false]
      have hlen := buildMapAux_length rest 0 false
      simp only [List.length_cons] at he
      cases s with
      | zero =>
        cases e with
        | zero => simp [collapseWsAux]
        | succ e2 =>
          rw [List.getD_cons_zero, List.getD_cons_succ, getD_map_add_one (by omega)]
          simp only [List.drop_zero, Nat.sub_zero, List.take_succ_cons]
          rw [collapseWsAux_head_nonws _ hc2, buildMapAux_take rest false e2 (by omega)]
      | succ s2 =>
        cases e with
        | zero => omega
        | succ e2 =>
          simp only [List.getD_cons_succ]
          rw [getD_map_add_one (by omega), getD_map_add_one (by omega)]
          simp only [List.drop_succ_cons, Nat.add_sub_add_right]
          exact ih false s2 e2 (by omega) (by omega)

/-! ### Completeness of `str.find` and infixes through whitespace -/

theorem strFindAux_complete : ∀ (hay : List Char) (i : Nat) (pat : List Char),
    pat <:+: hay → ∃ j, strFindAux pat hay i = some j := by
  intro hay
  induction hay with
  | nil =>
    intro i pat h
    have hlen : pat.length ≤ 0 := by simpa using h.length_le
    have hp : pat = [] := List.eq_nil_of_length_eq_zero (by omega)
    subst hp
    exact ⟨i, by simp [strFindAux, List.isPrefixOf]⟩
  | cons c rest ih =>
    intro i pat h
    by_cases hpre : pat.isPrefixOf (c :: rest)
    · exact ⟨i, by simp [strFindAux, hpre]⟩
    · have h2 : pat <:+: rest := by
        rcases List.infix_cons_iff.1 h with h1 | h1
        · exact absurd (List.isPrefixOf_iff_prefix.2 h1) hpre
        · exact h1
      obtain ⟨j, hj⟩ := ih (i + 1) pat h2
      exact ⟨j, by simp [strFindAux, hpre, hj]⟩

theorem str_find_complete {hay pat : List Char} (h : pat <:+: hay) :
    ∃ j, str_find hay pat = some j :=
  strFindAux_complete hay 0 pat h

theorem infix_of_infix_ws_append {t : List Char} (ht : ∀ c ∈ t, isWs c = true) :
    ∀ {x n : List Char}, (∀ c, x.head? = some c → isWs c = false) →
      x <:+: t ++ n → x <:+: n := by
  induction t with
  | nil => intro x n _ h; simpa using h
  | cons c t2 ih =>
    intro x n hx h
    rw [List.cons_append] at h
    rcases List.infix_cons_iff.1 h with h1 | h1
    · cases x with
      | nil => exact List.nil_infix
      | cons x0 xr =>
        exfalso
        have he : x0 = c := (List.cons_prefix_cons.1 h1).1
        have hf : isWs x0 = false := hx x0 rfl
        rw [he, ht c (by simp)] at hf
        simp at hf
    · exact ih (fun d hd => ht d (List.mem_cons_of_mem c hd)) hx h1

theorem infix_of_infix_append_ws {t : List Char} (ht : ∀ c ∈ t, isWs c = true)
    {x n : List Char} (hx : ∀ c, x.getLast? = some c → isWs c = false)
    (h : x <:+: n ++ t) : x <:+: n := by
  have h2 := List.reverse_infix.2 h
  rw [List.reverse_append] at h2
  have h3 : x.reverse <:+: n.reverse :=
    infix_of_infix_ws_append (fun d hd => ht d (List.mem_reverse.1 hd))
      (fun d hd => hx d (by rwa [List.head?_reverse] at hd)) h2
  exact List.reverse_infix.1 h3

theorem lowerStr_infix {x y : List Char} (h : x <:+: y) : lowerStr x <:+: lowerStr y := by
  obtain ⟨p, s, hps⟩ := h
  subst hps
  exact ⟨lowerStr p, lowerStr s, by simp [lowerStr]⟩

theorem collapse_infix_of_infix {X D : List Char} (h : X <:+: D) (hne : X ≠ [])
    (hh : ∀ c, X.head? = some c → isWs c = false)
    (hl : ∀ c, X.getLast? = some c → isWs c = false) :
    collapseWsAux X false <:+: collapseWsAux D false := by
  obtain ⟨u, v, huv⟩ := h
  subst huv
  rw [List.append_assoc]
  have hq : ∀ c, (X ++ v).head? = some c → isWs c = false := by
    cases X with
    | nil => exact absurd rfl hne
    | cons x0 xr =>
      intro c hc
      rw [List.cons_append] at hc
      obtain rfl : x0 = c := Option.some.inj hc
      exact hh x0 rfl
  rw [collapseWsAux_append_head hq u false, collapseWsAux_append_last hne hl false v]
  exact ⟨collapseWsAux u false, collapseWsAux v false, (List.append_assoc _ _ _)⟩

theorem takeWhile_nil_of_head_nonws {l : List Char}
    (h : ∀ c, l.head? = some c → isWs c = false) : l.takeWhile isWs = [] := by
  cases l with
  | nil => rfl
  | cons c rest => rw [List.takeWhile_cons, if_neg (by simp [h c rfl])]

theorem collapse_head_nonws_of_head {l : List Char}
    (h : ∀ c, l.head? = some c → isWs c = false) :
    ∀ c, (collapseWsAux l false).head? = some c → isWs c = false := by
  cases l with
  | nil => intro c hc; simp [collapseWsAux] at hc
  | cons c0 rest =>
    have hc0 := h c0 rfl
    rw [collapseWsAux_head_nonws rest hc0]
    intro c hc
    obtain rfl : c0 = c := Option.some.inj hc
    exact hc0

theorem lower_head_nonws {W : List Char}
    (h : ∀ c, (lowerStr W).head? = some c → isWs c = false) :
    ∀ c, W.head? = some c → isWs c = false := by
  intro c hc
  cases hx : isWs c with
  | false => rfl
  | true =>
    exfalso
    have h1 : (lowerStr W).head? = some (Char.toLower c) := by
      unfold lowerStr
      rw [List.head?_map, hc]
      rfl
    have h2 := h _ h1
    rw [toLower_of_isWs hx, hx] at h2
    simp at h2

theorem lower_last_nonws {W : List Char}
    (h : ∀ c, (lowerStr W).getLast? = some c → isWs c = false) :
    ∀ c, W.getLast? = some c → isWs c = false := by
  intro c hc
  cases hx : isWs c with
  | false => rfl
  | true =>
    exfalso
    have h1 : (lowerStr W).getLast? = some (Char.toLower c) := by
      unfold lowerStr
      rw [List.getLast?_map, hc]
      rfl
    have h2 := h _ h1
    rw [toLower_of_isWs hx, hx] at h2
    simp at h2

theorem drop_take_append_inner {α : Type} {N T : List α} {pos m : Nat}
    (h : pos + m ≤ N.length) :
    ((N ++ T).drop pos).take m = (N.drop pos).take m := by
  rw [List.take_drop, List.take_drop, List.take_append_of_le_length h]

/-! ## Claim C1 -/

theorem normalize_lower_eq_of_collapse {sl P : List Char}
    (hP : lowerStr (collapseWsAux sl false) = P)
    (hh : ∀ c, P.head? = some c → isWs c = false)
    (hl : ∀ c, P.getLast? = some c → isWs c = false) :
    lowerStr (normalize_whitespace sl) = P := by
  have hWh : ∀ c, (collapseWsAux sl false).head? = some c → isWs c = false :=
    lower_head_nonws (by rw [hP]; exact hh)
  have hWl : ∀ c, (collapseWsAux sl false).getLast? = some c → isWs c = false :=
    lower_last_nonws (by rw [hP]; exact hl)
  unfold normalize_whitespace
  rw [stripWs_eq_self hWh hWl, hP]

/-- C1 (corrected): the round trip holds up to whitespace normalization, and
only for record texts that do not start with whitespace.  For a record whose
text has no leading whitespace and a citation whose `quoted_text` is a
contiguous substring of it with nonempty whitespace-normalization,
`find_first_match` succeeds (on its exact branch) and the returned
`[start_char, end_char)` slice of the original text, whitespace-normalized and
lowercased, equals the citation's `quoted_text` normalized and lowercased.
(The literal claim — the raw slice lowercased equals `S` lowercased — is
false, see the counterexample: leading whitespace shifts the map by one
entry, and trailing/padded whitespace inside `S` is collapsed.) -/
theorem claim_C1 (self : SpanMatcher) (citation : ExtractionCitation) (record : MedicalRecord)
    (hhead : ∀ c, record.text.head? = some c → isWs c = false)
    (hinf : citation.quoted_text <:+: record.text)
    (hne : normalize_whitespace citation.quoted_text ≠ []) :
    ∃ s, self.find_first_match citation record = some s ∧
      lowerStr (normalize_whitespace
          ((record.text.drop s.start_char).take (s.end_char - s.start_char)))
        = lowerStr (normalize_whitespace citation.quoted_text) := by
  have key1 := normalize_eq_strip_collapse citation.quoted_text
  have hXne : stripWs citation.quoted_text ≠ [] := by
    intro h0
    apply hne
    rw [key1, h0]
    rfl
  have hXh := stripWs_head_nonws citation.quoted_text
  have hXl := stripWs_last_nonws citation.quoted_text
  have hXinf : stripWs citation.quoted_text <:+: record.text := by
    have hsi := stripWs_infix citation.quoted_text
    exact hsi.trans hinf
  have hCXinf := collapse_infix_of_infix hXinf hXne hXh hXl
  have hCDhead := collapse_head_nonws_of_head hhead
  have htake0 := takeWhile_nil_of_head_nonws hCDhead
  have hdecomp : collapseWsAux record.text false
      = normalize_whitespace record.text
        ++ (((collapseWsAux record.text false).dropWhile isWs).reverse.takeWhile isWs).reverse := by
    conv_lhs => rw [stripWs_decomp (collapseWsAux record.text false)]
    rw [htake0, List.nil_append]
    rfl
  have hT : ∀ c ∈ (((collapseWsAux record.text false).dropWhile isWs).reverse.takeWhile
      isWs).reverse, isWs c = true :=
    fun c hc => List.mem_takeWhile_imp (List.mem_reverse.1 hc)
  have hCXh := collapse_head_nonws_of_head hXh
  have hCXl : ∀ c, (collapseWsAux (stripWs citation.quoted_text) false).getLast? = some c →
      isWs c = false := by
    obtain ⟨d, hd, hdw⟩ := collapseWsAux_last_nonws (stripWs citation.quoted_text) false hXl hXne
    intro c hcc
    rw [hd] at hcc
    obtain rfl : d = c := Option.some.inj hcc
    exact hdw
  have hCXinfN : collapseWsAux (stripWs citation.quoted_text) false
      <:+: normalize_whitespace record.text := by
    rw [hdecomp] at hCXinf
    exact infix_of_infix_append_ws hT hCXl hCXinf
  have hPinf : lowerStr (normalize_whitespace citation.quoted_text)
      <:+: lowerStr (normalize_whitespace record.text) := by
    rw [key1]
    exact lowerStr_infix hCXinfN
  obtain ⟨pos, hpos⟩ := str_find_complete hPinf
  have hsound := str_find_sound hpos
  have hfind0 := hsound.1
  have hfind_le := hsound.2.2
  have hhay_len : (lowerStr (normalize_whitespace record.text)).length
      = (normalize_whitespace record.text).length := lowerStr_length _
  have hpat_pos : 0 < (lowerStr (normalize_whitespace citation.quoted_text)).length := by
    rw [lowerStr_length]
    cases hq : normalize_whitespace citation.quoted_text with
    | nil => exact absurd hq hne
    | cons a r => simp
  have hND_le : (normalize_whitespace record.text).length
      ≤ (collapseWsAux record.text false).length := by
    conv_rhs => rw [hdecomp]
    rw [List.length_append]
    omega
  have hM_len := norm_to_orig_length record.text
  have hend_le : pos + (lowerStr (normalize_whitespace citation.quoted_text)).length
      ≤ (normalize_whitespace record.text).length := by omega
  have hstart_lt : pos < (norm_to_orig record.text).length := by omega
  have hend_lt : pos + (lowerStr (normalize_whitespace citation.quoted_text)).length
      < (norm_to_orig record.text).length := by omega
  have hend_ne : mapLookup (norm_to_orig record.text)
      (pos + (lowerStr (normalize_whitespace citation.quoted_text)).length) ≠ 0 := by
    rw [mapLookup_of_lt hend_lt]
    have hlt := chain'_lt_getD (norm_to_orig_chain record.text)
      (show 0 < pos + (lowerStr (normalize_whitespace citation.quoted_text)).length by omega)
      hend_lt
    rw [norm_to_orig_head record.text] at hlt
    omega
  have hguard : ¬(mapLookup (norm_to_orig record.text) pos = 0 ∧
      mapLookup (norm_to_orig record.text)
        (pos + (lowerStr (normalize_whitespace citation.quoted_text)).length) = 0) :=
    fun hand => hend_ne hand.2
  refine ⟨⟨citation.question_id, citation.quoted_text, citation.confidence, record.record_id,
    mapLookup (norm_to_orig record.text) pos,
    mapLookup (norm_to_orig record.text)
      (pos + (lowerStr (normalize_whitespace citation.quoted_text)).length)⟩, ?_, ?_⟩
  · simp only [SpanMatcher.find_first_match, hpos]
    rw [if_neg hguard]
  · dsimp only
    rw [mapLookup_of_lt hstart_lt, mapLookup_of_lt hend_lt]
    have hslice := buildMapAux_slice record.text false pos
      (pos + (lowerStr (normalize_whitespace citation.quoted_text)).length)
      (by omega) (by omega)
    rw [show pos + (lowerStr (normalize_whitespace citation.quoted_text)).length - pos
        = (lowerStr (normalize_whitespace citation.quoted_text)).length from by omega] at hslice
    have hwin : ((collapseWsAux record.text false).drop pos).take
        (lowerStr (normalize_whitespace citation.quoted_text)).length
        = ((normalize_whitespace record.text).drop pos).take
          (lowerStr (normalize_whitespace citation.quoted_text)).length := by
      conv_lhs => rw [hdecomp]
      exact drop_take_append_inner (by omega)
    have hlowwin : lowerStr (((normalize_whitespace record.text).drop pos).take
        (lowerStr (normalize_whitespace citation.quoted_text)).length)
        = lowerStr (normalize_whitespace citation.quoted_text) := by
      have hpre := hsound.2.1
      rw [List.prefix_iff_eq_take] at hpre
      unfold lowerStr at hpre ⊢
      rw [List.map_take, List.map_drop]
      exact hpre.symm
    have hpath : ∀ c, (lowerStr (normalize_whitespace citation.quoted_text)).head? = some c →
        isWs c = false := by
      rw [key1]
      intro c hc
      unfold lowerStr at hc
      rw [List.head?_map] at hc
      cases hh0 : (collapseWsAux (stripWs citation.quoted_text) false).head? with
      | none => rw [hh0] at hc; simp at hc
      | some d =>
        rw [hh0] at hc
        have hd := hCXh d hh0
        obtain rfl : Char.toLower d = c := Option.some.inj hc
        exact isWs_toLower_eq_false hd
    have hpatl : ∀ c, (lowerStr (normalize_whitespace citation.quoted_text)).getLast? = some c →
        isWs c = false := by
      rw [key1]
      intro c hc
      unfold lowerStr at hc
      rw [List.getLast?_map] at hc
      cases hh0 : (collapseWsAux (stripWs citation.quoted_text) false).getLast? with
      | none => rw [hh0] at hc; simp at hc
      | some d =>
        rw [hh0] at hc
        have hd := hCXl d hh0
        obtain rfl : Char.toLower d = c := Option.some.inj hc
        exact isWs_toLower_eq_false hd
    simp only [norm_to_orig]
    apply normalize_lower_eq_of_collapse
    · rw [hslice, hwin]
      exact hlowwin
    · exact hpath
    · exact hpatl

/-- Witness for C1: record text `"ab cd"`, citation `"b c"` (a contiguous
substring); the hypotheses hold and the exact match round-trips up to
normalization and lowercasing. -/
theorem claim_C1_witness :
    (∀ c, (['a', 'b', ' ', 'c', 'd'] : List Char).head? = some c → isWs c = false) ∧
    (['b', ' ', 'c'] : List Char) <:+: ['a', 'b', ' ', 'c', 'd'] ∧
    normalize_whitespace ['b', ' ', 'c'] ≠ [] ∧
    (∃ s, SpanMatcher.find_first_match ⟨mkRat 9 10⟩ ⟨1, ['b', ' ', 'c'], Confidence.high⟩
        ⟨2, ['a', 'b', ' ', 'c', 'd']⟩ = some s ∧
      lowerStr (normalize_whitespace
          (((['a', 'b', ' ', 'c', 'd'] : List Char).drop s.start_char).take
            (s.end_char - s.start_char)))
        = lowerStr (normalize_whitespace ['b', ' ', 'c'])) :=
  ⟨by intro c hc; simp at hc; subst hc; decide,
   by decide,
   by decide,
   claim_C1 ⟨mkRat 9 10⟩ ⟨1, ['b', ' ', 'c'], Confidence.high⟩ ⟨2, ['a', 'b', ' ', 'c', 'd']⟩
     (by intro c hc; simp at hc; subst hc; decide) (by decide) (by decide)⟩

/-- Counterexample to C1 as stated: record text `" ab"` (leading space),
citation `"ab"` — a contiguous substring of length 2.  `find_first_match`
returns the span `[0, 2)`, whose slice of the original text is `" a"`, and
`" a"` lowercased is not `"ab"` lowercased: the index map has an entry for the
leading whitespace run, so positions in the stripped normalized text are
shifted by one against it. -/
theorem claim_C1_counterexample :
    (['a', 'b'] : List Char) <:+: [' ', 'a', 'b'] ∧
    1 ≤ (['a', 'b'] : List Char).length ∧
    SpanMatcher.find_first_match ⟨mkRat 9 10⟩ ⟨1, ['a', 'b'], Confidence.high⟩
        ⟨2, [' ', 'a', 'b']⟩
      = some ⟨1, ['a', 'b'], Confidence.high, 2, 0, 2⟩ ∧
    lowerStr ((([' ', 'a', 'b'] : List Char).drop 0).take (2 - 0)) ≠ lowerStr ['a', 'b'] := by
  decide

end Hackbrno
